import Mathlib

set_option maxRecDepth 8000

/-!
Verification of the hierarchical hybrid retrieval and verification engine of a
multi-modal RAG system for SEC 10-K filings.

The Python source is shallowly embedded in Lean: strings are `List Char` (a
query or answer string enters as `String.data`), floating-point scores and
extracted numbers are modelled as exact rationals `ℚ`, Python `dict`s that
preserve insertion order are association lists `List (String × β)` updated in
place, and code that can raise an exception returns `Option` (`none` models a
raised exception).  Embedded components:

* `src/qa/math_verifier.py` — number extraction (regex scan), calculation-type
  detection, tolerance matching and the `verify` entry point;
* `src/retrieval/query_router.py` — keyword routing;
* `src/retrieval/hierarchical_retriever.py` — stage-B retrieval branches,
  BM25 search and weighted score fusion (`_merge_results`);
* `src/retrieval/hybrid_search.py` — reciprocal rank fusion (`fuse_results`);
* `src/evaluation/metrics.py` — `compute_recall_at_k`.
-/

/-! ### Basic character and substring helpers -/

/-- Lowercase every character, modelling Python `str.lower()` on the
ASCII strings that occur in queries and keywords. -/
def lowers (cs : List Char) : List Char := cs.map Char.toLower

/-- `isPrefixL needle hay` : `needle` is a literal prefix of `hay`. -/
def isPrefixL : List Char → List Char → Bool
  | [], _ => true
  | _ :: _, [] => false
  | a :: as, b :: bs => a = b && isPrefixL as bs

/-- `containsSub hay needle` models the Python substring test
`needle in hay`. -/
def containsSub (hay needle : List Char) : Bool :=
  match hay with
  | [] => isPrefixL needle []
  | c :: t => isPrefixL needle (c :: t) || containsSub t needle

/-! ### Number extraction (`MathVerifier.extract_numbers`, string input)

The source scans the text with the regular expression
`-?\d+\.?\d*(?:[MBmb]|million|billion|thousand)?` (`re.findall`), strips unit
characters from each match with `re.sub`, parses the remainder with `float`,
and applies a multiplier decided by membership tests on the matched text.
The scan is embedded as a character-level matcher that reproduces the
leftmost, greedy, first-alternative semantics of the Python `re` engine. -/

/-- Greedily take a maximal run of decimal digits (the `\d+` / `\d*` parts). -/
def takeDigits : List Char → List Char × List Char
  | [] => ([], [])
  | c :: rest =>
    if c.isDigit then
      let p := takeDigits rest
      (c :: p.1, p.2)
    else ([], c :: rest)

/-- Consume an optional leading minus sign (the `-?` part). -/
def stripNeg : List Char → Bool × List Char
  | [] => (false, [])
  | c :: r => if c = '-' then (true, r) else (false, c :: r)

/-- Consume an optional decimal point (the `\.?` part). -/
def stripDot : List Char → Bool × List Char
  | [] => (false, [])
  | c :: r => if c = '.' then (true, r) else (false, c :: r)

/-- Magnitude-unit suffixes the regex can attach to a numeric token.
The word alternatives `million` and `billion` can never be taken: the
alternation tries the character class `[MBmb]` first, and since the whole
unit group is the last element of the pattern, a leading `m` or `b` already
completes the match. Only `thousand` is reachable as a word, and only in
lowercase (the regex is case-sensitive). -/
inductive NumUnit where
  | uM : NumUnit
  | uB : NumUnit
  | lm : NumUnit
  | lb : NumUnit
  | thous : NumUnit
deriving DecidableEq

/-- Characters contributed to the match by a unit suffix. -/
def unitChars : NumUnit → List Char
  | .uM => ['M']
  | .uB => ['B']
  | .lm => ['m']
  | .lb => ['b']
  | .thous => ['t', 'h', 'o', 'u', 's', 'a', 'n', 'd']

/-- Match the optional unit group `(?:[MBmb]|million|billion|thousand)?` at
the current position: first alternative that fits wins. -/
def matchUnit : List Char → Option NumUnit × List Char
  | 'M' :: r => (some .uM, r)
  | 'B' :: r => (some .uB, r)
  | 'm' :: r => (some .lm, r)
  | 'b' :: r => (some .lb, r)
  | 't' :: 'h' :: 'o' :: 'u' :: 's' :: 'a' :: 'n' :: 'd' :: r => (some .thous, r)
  | cs => (none, cs)

/-- One regex match, decomposed into the parts the pattern groups produce. -/
structure NumTok where
  neg : Bool
  intPart : List Char
  hasDot : Bool
  fracPart : List Char
  unit : Option NumUnit
deriving DecidableEq

/-- Try to match the number pattern at the head of `cs`; on success return
the token and the remaining characters.  A lone minus sign not followed by a
digit fails, exactly as the regex does after backtracking over `-?`. -/
def matchAt (cs : List Char) : Option (NumTok × List Char) :=
  let p1 := stripNeg cs
  let p2 := takeDigits p1.2
  if p2.1 = [] then none
  else
    let p3 := stripDot p2.2
    let p4 := takeDigits p3.2
    let p5 := matchUnit p4.2
    some (⟨p1.1, p2.1, p3.1, p4.1, p5.1⟩, p5.2)

/-- Fuel-driven scan loop of `re.findall`: at each position try to match;
on success continue after the match, otherwise advance one character.  Each
successful match consumes at least one character (it contains a digit), so
fuel equal to the length of the text never runs out. -/
def findNumTokensF : Nat → List Char → List NumTok
  | 0, _ => []
  | n + 1, cs =>
    match matchAt cs with
    | some p => p.1 :: findNumTokensF n p.2
    | none =>
      match cs with
      | [] => []
      | _ :: rest => findNumTokensF n rest

/-- All matches of the number pattern in `cs`, in text order. -/
def findNumTokens (cs : List Char) : List NumTok :=
  findNumTokensF cs.length cs

/-- The full matched text of a token, as the Python code sees it. -/
def tokChars (t : NumTok) : List Char :=
  (if t.neg then ['-'] else []) ++ t.intPart ++
    (if t.hasDot then ['.'] else []) ++ t.fracPart ++
    (match t.unit with
     | some u => unitChars u
     | none => [])

/-- `re.sub` with pattern `[MBmb]|million|billion|thousand` and empty
replacement.  The `million` and `billion` word alternatives are unreachable:
their leading `m`/`b` is always taken by the character class, so they are
omitted here (the engine would delete that single letter and keep the rest,
which the single-character cases already express). -/
def removeUnitSub : List Char → List Char
  | [] => []
  | c :: rest =>
    if c = 'M' ∨ c = 'B' ∨ c = 'm' ∨ c = 'b' then removeUnitSub rest
    else if c = 't' then
      match rest with
      | 'h' :: 'o' :: 'u' :: 's' :: 'a' :: 'n' :: 'd' :: rest2 => removeUnitSub rest2
      | rest => 't' :: removeUnitSub rest
    else c :: removeUnitSub rest

/-- Numeric value of a digit string, most significant digit first. -/
def digitsToNat (ds : List Char) : Nat :=
  ds.foldl (fun n c => 10 * n + (c.toNat - '0'.toNat)) 0

/-- Python `float()` on the stripped token text: optional sign, digit run,
optional point, digit run, nothing else, and at least one digit overall.
Returns `none` where `float` would raise `ValueError` (the source catches
that and skips the match). -/
def pyFloat? (cs : List Char) : Option ℚ :=
  let p1 := stripNeg cs
  let p2 := takeDigits p1.2
  let p3 := stripDot p2.2
  let p4 := takeDigits p3.2
  if p4.2 = [] ∧ (p2.1 ≠ [] ∨ p4.1 ≠ []) then
    some ((if p1.1 then -1 else 1) *
      ((digitsToNat p2.1 : ℚ) + (digitsToNat p4.1 : ℚ) / 10 ^ p4.1.length))
  else none

/-- Convert one match to its numeric value: strip the unit characters, parse
the rest, then apply the multiplier the source selects by testing the matched
text (`'B' in match or 'billion' in match.lower()`, then `M`/`million`, then
`thousand`). -/
def tokValue (t : NumTok) : Option ℚ :=
  let ms := tokChars t
  match pyFloat? (removeUnitSub ms) with
  | none => none
  | some v =>
    some
      (if ms.contains 'B' || containsSub (lowers ms) ['b', 'i', 'l', 'l', 'i', 'o', 'n'] then
        v * 1000000000
      else if ms.contains 'M' || containsSub (lowers ms) ['m', 'i', 'l', 'l', 'i', 'o', 'n'] then
        v * 1000000
      else if containsSub (lowers ms) ['t', 'h', 'o', 'u', 's', 'a', 'n', 'd'] then
        v * 1000
      else v)

/-- `MathVerifier.extract_numbers` on character lists. -/
def extractChars (cs : List Char) : List ℚ :=
  (findNumTokens cs).filterMap tokValue

/-- `MathVerifier.extract_numbers` on a string input. -/
def extract_numbers (s : String) : List ℚ :=
  extractChars s.data

/-- The lowercase alternative `[MBmb]` captures the `b` of `"5b"`. -/
lemma findNumTokens_5b :
    findNumTokens "5b".data = [⟨false, ['5'], false, [], some .lb⟩] := by decide

/-- The word alternative `thousand` is reachable (no one-letter `t`/`T` in
`[MBmb]` shadows it). -/
lemma findNumTokens_5thousand :
    findNumTokens "5thousand".data = [⟨false, ['5'], false, [], some .thous⟩] := by decide

/-- The alternation is first-match: `[MBmb]` swallows the leading `m` of
`million`, so the word alternative is unreachable and `illion` is left
unconsumed. -/
lemma findNumTokens_5million :
    findNumTokens "5million".data = [⟨false, ['5'], false, [], some .lm⟩] := by decide

lemma findNumTokens_1005 :
    findNumTokens "100.5".data = [⟨false, ['1', '0', '0'], true, ['5'], none⟩] := by decide

/-! ### Closed form for `tokValue`

Rational arithmetic does not evaluate by kernel reduction, so concrete
extraction results are computed by first deciding the character-level scan
and then rewriting each token with the closed form below. -/

/-- Well-formedness of a token as produced by the scan: a nonempty digit run,
digit-only parts, and no fractional digits without a decimal point (the
greedy `\d+` would have swallowed them). -/
def TokWF (t : NumTok) : Prop :=
  t.intPart ≠ [] ∧ (∀ c ∈ t.intPart, c.isDigit = true) ∧
    (∀ c ∈ t.fracPart, c.isDigit = true) ∧ (t.hasDot = false → t.fracPart = [])

instance (t : NumTok) : Decidable (TokWF t) := by
  unfold TokWF; infer_instance

/-- Numeric value of the token text without its unit, as `float` parses it. -/
def tokBase (t : NumTok) : ℚ :=
  (if t.neg then -1 else 1) *
    ((digitsToNat t.intPart : ℚ) + (digitsToNat t.fracPart : ℚ) / 10 ^ t.fracPart.length)

/-- Multiplier actually applied by the source: uppercase `B` and `M` and the
lowercase word `thousand` scale the value; lowercase `b` and `m` are stripped
without a multiplier. -/
def unitMult : Option NumUnit → ℚ
  | some .uB => 1000000000
  | some .uM => 1000000
  | some .thous => 1000
  | _ => 1

/-- Lowercasing a decimal digit leaves it unchanged. -/
lemma digit_toLower (c : Char) (h : c.isDigit = true) : c.toLower = c := by
  simp only [Char.isDigit, Bool.and_eq_true, decide_eq_true_eq] at h
  have h2 : c.val.toNat ≤ 57 := by
    have := h.2
    simpa [UInt32.le_def, BitVec.le_def, UInt32.toNat] using this
  unfold Char.toLower
  have hc : ¬ (65 ≤ Char.toNat c ∧ Char.toNat c ≤ 90) := by
    unfold Char.toNat
    omega
  simp [hc]

/-- A digit differs from any non-digit character. -/
lemma digit_ne (c d : Char) (h : c.isDigit = true) (hd : d.isDigit = false) : c ≠ d := by
  intro he
  subst he
  simp [h] at hd

/-- Characters on which the unit-stripping substitution is the identity step. -/
def plainChar (c : Char) : Prop :=
  c ≠ 'M' ∧ c ≠ 'B' ∧ c ≠ 'm' ∧ c ≠ 'b' ∧ c ≠ 't'

lemma plainChar_of_digit (c : Char) (h : c.isDigit = true) : plainChar c :=
  ⟨digit_ne c 'M' h (by decide), digit_ne c 'B' h (by decide), digit_ne c 'm' h (by decide),
    digit_ne c 'b' h (by decide), digit_ne c 't' h (by decide)⟩

lemma removeUnitSub_cons_plain (c : Char) (cs : List Char) (h : plainChar c) :
    removeUnitSub (c :: cs) = c :: removeUnitSub cs := by
  obtain ⟨h1, h2, h3, h4, h5⟩ := h
  rw [removeUnitSub.eq_def]
  simp only
  rw [if_neg (by tauto), if_neg h5]

lemma removeUnitSub_append_plain (l r : List Char) (hl : ∀ c ∈ l, plainChar c) :
    removeUnitSub (l ++ r) = l ++ removeUnitSub r := by
  induction l with
  | nil => simp
  | cons c t ih =>
    rw [List.cons_append, removeUnitSub_cons_plain c (t ++ r) (hl c (by simp)), ih]
    · simp
    · exact fun d hd => hl d (by simp [hd])

lemma stripNeg_cons_ne (c : Char) (r : List Char) (h : c ≠ '-') :
    stripNeg (c :: r) = (false, c :: r) := by
  simp only [stripNeg]
  rw [if_neg h]

lemma stripDot_cons_ne (c : Char) (r : List Char) (h : c ≠ '.') :
    stripDot (c :: r) = (false, c :: r) := by
  simp only [stripDot]
  rw [if_neg h]

lemma takeDigits_app (l r : List Char) (hl : ∀ c ∈ l, c.isDigit = true)
    (hr : ∀ c cs, r = c :: cs → c.isDigit = false) :
    takeDigits (l ++ r) = (l, r) := by
  induction l with
  | nil =>
    cases r with
    | nil => rfl
    | cons c cs =>
      rw [List.nil_append, takeDigits]
      simp [hr c cs rfl]
  | cons c t ih =>
    rw [List.cons_append, takeDigits]
    simp only [hl c (by simp), if_true]
    rw [ih (fun d hd => hl d (by simp [hd]))]

/-- The token text with the unit removed, i.e. what `float` gets to parse. -/
def numChars (t : NumTok) : List Char :=
  (if t.neg then ['-'] else []) ++ t.intPart ++
    (if t.hasDot then ['.'] else []) ++ t.fracPart

lemma removeUnitSub_unit (u : Option NumUnit) :
    removeUnitSub (match u with | some v => unitChars v | none => []) = [] := by
  cases u with
  | none => rfl
  | some v => cases v <;> decide

lemma removeUnitSub_tokChars (t : NumTok)
    (h2 : ∀ c ∈ t.intPart, c.isDigit = true) (h3 : ∀ c ∈ t.fracPart, c.isDigit = true) :
    removeUnitSub (tokChars t) = numChars t := by
  have hplain : ∀ c ∈ numChars t, plainChar c := by
    intro c hc
    simp only [numChars, List.mem_append] at hc
    rcases hc with ((hc | hc) | hc) | hc
    · cases hneg : t.neg
      · rw [hneg] at hc; simp at hc
      · rw [hneg] at hc; simp at hc; subst hc
        exact ⟨by decide, by decide, by decide, by decide, by decide⟩
    · exact plainChar_of_digit c (h2 c hc)
    · cases hdot : t.hasDot
      · rw [hdot] at hc; simp at hc
      · rw [hdot] at hc; simp at hc; subst hc
        exact ⟨by decide, by decide, by decide, by decide, by decide⟩
    · exact plainChar_of_digit c (h3 c hc)
  have hsplit : tokChars t =
      numChars t ++ (match t.unit with | some u => unitChars u | none => []) := rfl
  rw [hsplit, removeUnitSub_append_plain _ _ hplain, removeUnitSub_unit, List.append_nil]

lemma takeDigits_self (l : List Char) (hl : ∀ c ∈ l, c.isDigit = true) :
    takeDigits l = (l, []) := by
  have h := takeDigits_app l [] hl (by intro c cs hc; simp at hc)
  simpa using h

lemma stripDot_dot (r : List Char) : stripDot ('.' :: r) = (true, r) := rfl

lemma stripNeg_of_intPart (t : NumTok) (h1 : t.intPart ≠ [])
    (h2 : ∀ c ∈ t.intPart, c.isDigit = true) :
    stripNeg (numChars t) =
      (t.neg, t.intPart ++ ((if t.hasDot then ['.'] else []) ++ t.fracPart)) := by
  obtain ⟨d, ds, hd⟩ : ∃ d ds, t.intPart = d :: ds := by
    cases hi : t.intPart with
    | nil => exact absurd hi h1
    | cons d ds => exact ⟨d, ds, rfl⟩
  have hdig : d.isDigit = true := h2 d (by rw [hd]; simp)
  cases hneg : t.neg with
  | true => simp [numChars, hneg, stripNeg, List.append_assoc]
  | false =>
    have hn : numChars t = t.intPart ++ ((if t.hasDot then ['.'] else []) ++ t.fracPart) := by
      simp [numChars, hneg, List.append_assoc]
    rw [hn, hd, List.cons_append,
      stripNeg_cons_ne d _ (digit_ne d '-' hdig (by decide))]

lemma pyFloat_numChars (t : NumTok) (h : TokWF t) :
    pyFloat? (numChars t) = some (tokBase t) := by
  obtain ⟨h1, h2, h3, h4⟩ := h
  cases hdot : t.hasDot with
  | true =>
    have htake1 : takeDigits (t.intPart ++ ('.' :: t.fracPart)) =
        (t.intPart, '.' :: t.fracPart) := by
      refine takeDigits_app _ _ h2 ?_
      intro c cs hc
      have hcc : c = '.' := ((List.cons.injEq '.' t.fracPart c cs).mp hc).1.symm
      subst hcc; decide
    have hstrip : stripNeg (numChars t) = (t.neg, t.intPart ++ ('.' :: t.fracPart)) := by
      have h' := stripNeg_of_intPart t h1 h2
      rw [hdot] at h'
      simpa using h'
    simp only [pyFloat?, hstrip, htake1, stripDot_dot, takeDigits_self t.fracPart h3]
    rw [if_pos (And.intro (by simp) (Or.inl h1))]
    simp only [tokBase]
  | false =>
    have hfr : t.fracPart = [] := h4 hdot
    have hstrip : stripNeg (numChars t) = (t.neg, t.intPart) := by
      have h' := stripNeg_of_intPart t h1 h2
      rw [hdot] at h'
      simpa [hfr] using h'
    simp only [pyFloat?, hstrip, takeDigits_self t.intPart h2, stripDot, takeDigits]
    rw [if_pos (And.intro (by simp) (Or.inl h1))]
    simp only [tokBase, hfr]

lemma isPrefixL_mem (needle hay : List Char) (h : isPrefixL needle hay = true) :
    ∀ c ∈ needle, c ∈ hay := by
  induction needle generalizing hay with
  | nil => intro c hc; simp at hc
  | cons a as ih =>
    cases hay with
    | nil => simp [isPrefixL] at h
    | cons b bs =>
      simp only [isPrefixL, Bool.and_eq_true, decide_eq_true_eq] at h
      intro c hc
      rcases List.mem_cons.mp hc with hc | hc
      · subst hc; rw [h.1]; exact List.mem_cons_self b bs
      · exact List.mem_cons_of_mem b (ih bs h.2 c hc)

lemma containsSub_subset (hay needle : List Char) (h : containsSub hay needle = true) :
    ∀ c ∈ needle, c ∈ hay := by
  induction hay with
  | nil =>
    cases needle with
    | nil => intro c hc; simp at hc
    | cons a as => simp [containsSub, isPrefixL] at h
  | cons b bs ih =>
    rw [containsSub, Bool.or_eq_true] at h
    rcases h with h | h
    · exact isPrefixL_mem _ _ h
    · exact fun c hc => List.mem_cons_of_mem b (ih h c hc)

lemma isPrefixL_self (l : List Char) : isPrefixL l l = true := by
  induction l with
  | nil => rfl
  | cons a as ih => simp [isPrefixL, ih]

lemma containsSub_of_suffix (hay needle : List Char) (h : needle <:+ hay) :
    containsSub hay needle = true := by
  induction hay with
  | nil =>
    obtain ⟨pre, hpre⟩ := h
    have : needle = [] := by
      cases pre <;> simp_all
    subst this; rfl
  | cons b bs ih =>
    obtain ⟨pre, hpre⟩ := h
    cases pre with
    | nil =>
      simp only [List.nil_append] at hpre
      subst hpre
      rw [containsSub, isPrefixL_self]
      simp
    | cons p ps =>
      simp only [List.cons_append, List.cons.injEq] at hpre
      rw [containsSub, ih ⟨ps, hpre.2⟩]
      simp

lemma containsSub_false_of_char (hay needle : List Char) (c₀ : Char)
    (hc : c₀ ∈ needle) (hn : c₀ ∉ hay) : containsSub hay needle = false := by
  cases hcs : containsSub hay needle with
  | false => rfl
  | true => exact absurd (containsSub_subset _ _ hcs c₀ hc) hn

lemma mem_tokChars (t : NumTok) (c : Char) (hc : c ∈ tokChars t) :
    c = '-' ∨ c ∈ t.intPart ∨ c = '.' ∨ c ∈ t.fracPart ∨
      (∃ u, t.unit = some u ∧ c ∈ unitChars u) := by
  simp only [tokChars, List.mem_append] at hc
  rcases hc with ((((hc | hc) | hc) | hc) | hc)
  · cases hneg : t.neg
    · rw [hneg] at hc; simp at hc
    · rw [hneg] at hc; simp at hc; exact Or.inl hc
  · exact Or.inr (Or.inl hc)
  · cases hdot : t.hasDot
    · rw [hdot] at hc; simp at hc
    · rw [hdot] at hc; simp at hc; exact Or.inr (Or.inr (Or.inl hc))
  · exact Or.inr (Or.inr (Or.inr (Or.inl hc)))
  · cases hu : t.unit with
    | none => rw [hu] at hc; simp at hc
    | some u =>
      rw [hu] at hc
      exact Or.inr (Or.inr (Or.inr (Or.inr ⟨u, rfl, hc⟩)))

lemma contains_iff_mem (l : List Char) (a : Char) : l.contains a = true ↔ a ∈ l := by
  simp [List.contains_eq_any_beq, List.any_eq_true, eq_comm]

lemma not_mem_tok (t : NumTok)
    (h2 : ∀ c ∈ t.intPart, c.isDigit = true) (h3 : ∀ c ∈ t.fracPart, c.isDigit = true)
    (c₀ : Char) (hd : c₀.isDigit = false) (hm : c₀ ≠ '-') (hp : c₀ ≠ '.')
    (hu : ∀ u, t.unit = some u → c₀ ∉ unitChars u) :
    c₀ ∉ tokChars t := by
  intro hmem
  rcases mem_tokChars t c₀ hmem with hc | hc | hc | hc | ⟨u, huu, hc⟩
  · exact hm hc
  · rw [h2 c₀ hc] at hd; cases hd
  · exact hp hc
  · rw [h3 c₀ hc] at hd; cases hd
  · exact hu u huu hc

lemma mem_tok_unit (t : NumTok) (u : NumUnit) (hu : t.unit = some u)
    (c₀ : Char) (hc : c₀ ∈ unitChars u) : c₀ ∈ tokChars t := by
  simp only [tokChars, hu]
  simp [hc]

lemma mem_lowers_tokChars (t : NumTok)
    (h2 : ∀ c ∈ t.intPart, c.isDigit = true) (h3 : ∀ c ∈ t.fracPart, c.isDigit = true)
    (c' : Char) (hc : c' ∈ lowers (tokChars t)) :
    c'.isDigit = true ∨ c' = '-' ∨ c' = '.' ∨
      (∃ u, t.unit = some u ∧ c' ∈ lowers (unitChars u)) := by
  simp only [lowers, List.mem_map] at hc
  obtain ⟨c, hcmem, hclow⟩ := hc
  rcases mem_tokChars t c hcmem with hc | hc | hc | hc | ⟨u, huu, hc⟩
  · subst hc; rw [← hclow]; exact Or.inr (Or.inl rfl)
  · have hd := h2 c hc
    rw [digit_toLower c hd] at hclow
    subst hclow; exact Or.inl hd
  · subst hc; rw [← hclow]; exact Or.inr (Or.inr (Or.inl rfl))
  · have hd := h3 c hc
    rw [digit_toLower c hd] at hclow
    subst hclow; exact Or.inl hd
  · exact Or.inr (Or.inr (Or.inr ⟨u, huu, by
      rw [← hclow]; exact List.mem_map_of_mem Char.toLower hc⟩))

lemma word_sub_false (t : NumTok)
    (h2 : ∀ c ∈ t.intPart, c.isDigit = true) (h3 : ∀ c ∈ t.fracPart, c.isDigit = true)
    (needle : List Char) (c₀ : Char) (hcn : c₀ ∈ needle)
    (hd : c₀.isDigit = false) (hm : c₀ ≠ '-') (hp : c₀ ≠ '.')
    (hu : ∀ u, t.unit = some u → c₀ ∉ lowers (unitChars u)) :
    containsSub (lowers (tokChars t)) needle = false := by
  refine containsSub_false_of_char _ _ c₀ hcn ?_
  intro hmem
  rcases mem_lowers_tokChars t h2 h3 c₀ hmem with hc | hc | hc | ⟨u, huu, hc⟩
  · rw [hc] at hd; cases hd
  · exact hm hc
  · exact hp hc
  · exact hu u huu hc

/-- Closed form for `tokValue` on scan-produced tokens: the unit suffix fully
determines the multiplier, and lowercase `b`/`m` yield no multiplier. -/
lemma tokValue_eq (t : NumTok) (h : TokWF t) :
    tokValue t = some (tokBase t * unitMult t.unit) := by
  obtain ⟨h1, h2, h3, h4⟩ := h
  have hbillion : containsSub (lowers (tokChars t)) ['b', 'i', 'l', 'l', 'i', 'o', 'n'] = false := by
    refine word_sub_false t h2 h3 _ 'i' (by simp) (by decide) (by decide) (by decide) ?_
    intro u huu
    cases u <;> decide
  have hmillion : containsSub (lowers (tokChars t)) ['m', 'i', 'l', 'l', 'i', 'o', 'n'] = false := by
    refine word_sub_false t h2 h3 _ 'i' (by simp) (by decide) (by decide) (by decide) ?_
    intro u huu
    cases u <;> decide
  simp only [tokValue]
  rw [removeUnitSub_tokChars t h2 h3, pyFloat_numChars t ⟨h1, h2, h3, h4⟩]
  cases hu : t.unit with
  | none =>
    have hB := not_mem_tok t h2 h3 'B' (by decide) (by decide) (by decide)
      (fun u huu => by rw [hu] at huu; cases huu)
    have hM := not_mem_tok t h2 h3 'M' (by decide) (by decide) (by decide)
      (fun u huu => by rw [hu] at huu; cases huu)
    have hth : containsSub (lowers (tokChars t)) ['t', 'h', 'o', 'u', 's', 'a', 'n', 'd'] = false := by
      refine word_sub_false t h2 h3 _ 'h' (by decide) (by decide) (by decide) (by decide) ?_
      intro u huu; rw [hu] at huu; cases huu
    simp [hB, hM, hbillion, hmillion, hth, unitMult]
  | some u =>
    cases u with
    | uB =>
      have hB := mem_tok_unit t .uB hu 'B' (by decide)
      simp [hB, unitMult, hu]
    | uM =>
      have hB := not_mem_tok t h2 h3 'B' (by decide) (by decide) (by decide)
        (fun v hv => by rw [hu] at hv; cases hv; decide)
      have hM := mem_tok_unit t .uM hu 'M' (by decide)
      simp [hB, hM, hbillion, unitMult, hu]
    | lm =>
      have hB := not_mem_tok t h2 h3 'B' (by decide) (by decide) (by decide)
        (fun v hv => by rw [hu] at hv; cases hv; decide)
      have hM := not_mem_tok t h2 h3 'M' (by decide) (by decide) (by decide)
        (fun v hv => by rw [hu] at hv; cases hv; decide)
      have hth : containsSub (lowers (tokChars t)) ['t', 'h', 'o', 'u', 's', 'a', 'n', 'd'] = false := by
        refine word_sub_false t h2 h3 _ 'h' (by decide) (by decide) (by decide) (by decide) ?_
        intro v hv; rw [hu] at hv; cases hv; decide
      simp [hB, hM, hbillion, hmillion, hth, unitMult, hu]
    | lb =>
      have hB := not_mem_tok t h2 h3 'B' (by decide) (by decide) (by decide)
        (fun v hv => by rw [hu] at hv; cases hv; decide)
      have hM := not_mem_tok t h2 h3 'M' (by decide) (by decide) (by decide)
        (fun v hv => by rw [hu] at hv; cases hv; decide)
      have hth : containsSub (lowers (tokChars t)) ['t', 'h', 'o', 'u', 's', 'a', 'n', 'd'] = false := by
        refine word_sub_false t h2 h3 _ 'h' (by decide) (by decide) (by decide) (by decide) ?_
        intro v hv; rw [hu] at hv; cases hv; decide
      simp [hB, hM, hbillion, hmillion, hth, unitMult, hu]
    | thous =>
      have hB := not_mem_tok t h2 h3 'B' (by decide) (by decide) (by decide)
        (fun v hv => by rw [hu] at hv; cases hv; decide)
      have hM := not_mem_tok t h2 h3 'M' (by decide) (by decide) (by decide)
        (fun v hv => by rw [hu] at hv; cases hv; decide)
      have hth : containsSub (lowers (tokChars t)) ['t', 'h', 'o', 'u', 's', 'a', 'n', 'd'] = true := by
        refine containsSub_of_suffix _ _ ?_
        have hms : lowers (tokChars t) =
            lowers ((if t.neg then ['-'] else []) ++ t.intPart ++
              (if t.hasDot then ['.'] else []) ++ t.fracPart) ++
              ['t', 'h', 'o', 'u', 's', 'a', 'n', 'd'] := by
          rw [show tokChars t = ((if t.neg then ['-'] else []) ++ t.intPart ++
              (if t.hasDot then ['.'] else []) ++ t.fracPart) ++ unitChars .thous from by
            simp [tokChars, hu]]
          rw [lowers, lowers, List.map_append]
          rw [show List.map Char.toLower (unitChars .thous) =
            ['t', 'h', 'o', 'u', 's', 'a', 'n', 'd'] from by decide]
        rw [hms]
        exact ⟨_, rfl⟩
      simp [hB, hM, hbillion, hmillion, hth, unitMult, hu]


/-! ### Concrete extraction values -/

lemma extract_eval (s : String) (toks : List NumTok) (h : findNumTokens s.data = toks) :
    extract_numbers s = toks.filterMap tokValue := by
  rw [extract_numbers, extractChars, h]

lemma extract_5b : extract_numbers "5b" = [5] := by
  have hv : tokValue ⟨false, ['5'], false, [], some .lb⟩ = some 5 := by
    rw [tokValue_eq _ (by decide)]
    norm_num [tokBase, unitMult, show digitsToNat ['5'] = 5 from by decide,
      show digitsToNat [] = 0 from rfl]
  rw [extract_eval "5b" [⟨false, ['5'], false, [], some .lb⟩] (by decide)]
  simp [hv]

lemma extract_5B : extract_numbers "5B" = [5000000000] := by
  have hv : tokValue ⟨false, ['5'], false, [], some .uB⟩ = some 5000000000 := by
    rw [tokValue_eq _ (by decide)]
    norm_num [tokBase, unitMult, show digitsToNat ['5'] = 5 from by decide,
      show digitsToNat [] = 0 from rfl]
  rw [extract_eval "5B" [⟨false, ['5'], false, [], some .uB⟩] (by decide)]
  simp [hv]

lemma extract_5m : extract_numbers "5m" = [5] := by
  have hv : tokValue ⟨false, ['5'], false, [], some .lm⟩ = some 5 := by
    rw [tokValue_eq _ (by decide)]
    norm_num [tokBase, unitMult, show digitsToNat ['5'] = 5 from by decide,
      show digitsToNat [] = 0 from rfl]
  rw [extract_eval "5m" [⟨false, ['5'], false, [], some .lm⟩] (by decide)]
  simp [hv]

lemma extract_5M : extract_numbers "5M" = [5000000] := by
  have hv : tokValue ⟨false, ['5'], false, [], some .uM⟩ = some 5000000 := by
    rw [tokValue_eq _ (by decide)]
    norm_num [tokBase, unitMult, show digitsToNat ['5'] = 5 from by decide,
      show digitsToNat [] = 0 from rfl]
  rw [extract_eval "5M" [⟨false, ['5'], false, [], some .uM⟩] (by decide)]
  simp [hv]

lemma extract_rev100 : extract_numbers "Revenue was 100" = [100] := by
  have hv : tokValue ⟨false, ['1', '0', '0'], false, [], none⟩ = some 100 := by
    rw [tokValue_eq _ (by decide)]
    norm_num [tokBase, unitMult, show digitsToNat ['1', '0', '0'] = 100 from by decide,
      show digitsToNat [] = 0 from rfl]
  rw [extract_eval "Revenue was 100" [⟨false, ['1', '0', '0'], false, [], none⟩] (by decide)]
  simp [hv]

lemma extract_1005 : extract_numbers "100.5" = [201 / 2] := by
  have hv : tokValue ⟨false, ['1', '0', '0'], true, ['5'], none⟩ = some (201 / 2) := by
    rw [tokValue_eq _ (by decide)]
    norm_num [tokBase, unitMult, show digitsToNat ['1', '0', '0'] = 100 from by decide,
      show digitsToNat ['5'] = 5 from by decide]
  rw [extract_eval "100.5" [⟨false, ['1', '0', '0'], true, ['5'], none⟩] (by decide)]
  simp [hv]

lemma extract_90 : extract_numbers "90" = [90] := by
  have hv : tokValue ⟨false, ['9', '0'], false, [], none⟩ = some 90 := by
    rw [tokValue_eq _ (by decide)]
    norm_num [tokBase, unitMult, show digitsToNat ['9', '0'] = 90 from by decide,
      show digitsToNat [] = 0 from rfl]
  rw [extract_eval "90" [⟨false, ['9', '0'], false, [], none⟩] (by decide)]
  simp [hv]

lemma extract_flat : extract_numbers "Revenue was flat" = [] := by
  rw [extract_eval "Revenue was flat" [] (by decide)]
  rfl

/-! ### Polymorphic input of `extract_numbers`

`MathVerifier.extract_numbers` also accepts a list of evidence values: for a
list it loops over the items, extending an accumulator with the numbers of
each item's `content` field (dicts), or of the item's string rendering
(non-dicts).  The dynamically typed input is embedded as an inductive value
universe: strings, dicts with an optional `content` value, lists, and other
values carrying their `str()` rendering. -/

inductive PyVal where
  | vstr : String → PyVal
  | vdict : Option PyVal → String → PyVal
  | vlist : List PyVal → String → PyVal
  | vother : String → PyVal

/-- Python `str()` of a value; non-string values carry their rendering. -/
def pyValStr : PyVal → String
  | .vstr s => s
  | .vdict _ r => r
  | .vlist _ r => r
  | .vother r => r

mutual

/-- `extract_numbers` on an arbitrary value: lists loop over their items,
everything else goes through `str()` and the regex scan. -/
def extract_numbers_val : PyVal → List ℚ
  | .vlist items _ => extractItemsAcc [] items
  | v => extractChars (pyValStr v).data

/-- Contribution of one list item, the body of the source's `for` loop:
a dict item contributes `extract_numbers(item.get('content', ''))` — on a
missing key the default `''` takes the string path — and a non-dict item
contributes `extract_numbers(str(item))`. -/
def itemNumbers : PyVal → List ℚ
  | .vdict (some c) _ => extract_numbers_val c
  | .vdict none _ => extract_numbers ""
  | it => extractChars (pyValStr it).data

/-- The list loop with its `all_numbers` accumulator (`list.extend`). -/
def extractItemsAcc : List ℚ → List PyVal → List ℚ
  | acc, [] => acc
  | acc, item :: rest => extractItemsAcc (acc ++ itemNumbers item) rest

end

lemma extractItemsAcc_eq (items : List PyVal) (acc : List ℚ) :
    extractItemsAcc acc items = acc ++ (items.map itemNumbers).flatten := by
  induction items generalizing acc with
  | nil => simp [extractItemsAcc]
  | cons item rest ih =>
    rw [extractItemsAcc, ih]
    simp

/-! ### Math verifier (`src/qa/math_verifier.py`)

`verify` returns a dict with `status` and `message`; only the status string is
modelled (the message carries no decision).  Evidence pieces enter with their
`content` string and `metadata['content_type']`. -/

structure Evidence where
  content : String
  content_type : String

/-- `MathVerifier._numbers_match` with relative tolerance. -/
def numbersMatch (tol n1 n2 : ℚ) : Bool :=
  if n2 = 0 then decide (|n1| < tol) else decide (|(n1 - n2) / n2| < tol)

/-- `MathVerifier._verify_presence`: every answer number matches some
evidence number. -/
def presenceOk (tol : ℚ) (ans ev : List ℚ) : Bool :=
  ans.all (fun a => ev.any (fun e => numbersMatch tol a e))

/-- `MathVerifier._verify_difference`: the first answer number matches the
absolute difference of some pair `i < j` of evidence numbers. -/
def differenceOk (tol : ℚ) (ans ev : List ℚ) : Bool :=
  if ans.length < 1 ∨ ev.length < 2 then false
  else
    (List.range ev.length).any fun i =>
      (List.range ev.length).any fun j =>
        decide (i < j) && numbersMatch tol (ans.getD 0 0) |ev.getD i 0 - ev.getD j 0|

/-- `MathVerifier._verify_ratio`: the first answer number matches the ratio of
some ordered pair with nonzero denominator. -/
def ratioOk (tol : ℚ) (ans ev : List ℚ) : Bool :=
  if ans.length < 1 ∨ ev.length < 2 then false
  else
    (List.range ev.length).any fun i =>
      (List.range ev.length).any fun j =>
        decide (i ≠ j) && decide (ev.getD j 0 ≠ 0) &&
          numbersMatch tol (ans.getD 0 0) (ev.getD i 0 / ev.getD j 0)

/-- `MathVerifier._verify_percentage`: the first answer number matches the
percentage change of some ordered pair with nonzero denominator. -/
def percentOk (tol : ℚ) (ans ev : List ℚ) : Bool :=
  if ans.length < 1 ∨ ev.length < 2 then false
  else
    (List.range ev.length).any fun i =>
      (List.range ev.length).any fun j =>
        decide (i ≠ j) && decide (ev.getD j 0 ≠ 0) &&
          numbersMatch tol (ans.getD 0 0)
            ((ev.getD i 0 - ev.getD j 0) / ev.getD j 0 * 100)

/-- `MathVerifier._detect_calculation_type`.  The source lowercases the
answer as well but never uses it: the keyword tests run on the query alone. -/
def detect_calculation_type (query answer : String) : String :=
  let ql := lowers query.data
  if ["change", "difference", "increase", "decrease"].any
      (fun kw => containsSub ql kw.data) then "difference"
  else if ["ratio", "compared to", "per"].any
      (fun kw => containsSub ql kw.data) then "ratio"
  else if ["percentage", "%", "percent", "yoy"].any
      (fun kw => containsSub ql kw.data) then "percentage"
  else "lookup"

/-- Numbers extracted from table-typed evidence only, the verifier's
`evidence_numbers` loop. -/
def evidenceNums (evidence : List Evidence) : List ℚ :=
  evidence.foldl
    (fun acc ev =>
      if ev.content_type = "table" then acc ++ extract_numbers ev.content else acc) []

/-- `MathVerifier.verify`, returning the `status` string. -/
def verify (tol : ℚ) (answer : String) (evidence : List Evidence) (query : String) :
    String :=
  let answer_numbers := extract_numbers answer
  let evidence_numbers := evidenceNums evidence
  if answer_numbers.isEmpty then "no_numbers"
  else
    let calc_type := detect_calculation_type query answer
    let ok :=
      if calc_type = "difference" then differenceOk tol answer_numbers evidence_numbers
      else if calc_type = "ratio" then ratioOk tol answer_numbers evidence_numbers
      else if calc_type = "percentage" then percentOk tol answer_numbers evidence_numbers
      else presenceOk tol answer_numbers evidence_numbers
    if ok then "verified" else "failed"

lemma verify_lookup (tol : ℚ) (answer : String) (evidence : List Evidence) (query : String)
    (hq : detect_calculation_type query answer = "lookup")
    (ha : extract_numbers answer ≠ []) :
    verify tol answer evidence query =
      if presenceOk tol (extract_numbers answer) (evidenceNums evidence) then "verified"
      else "failed" := by
  simp only [verify, hq]
  rw [if_neg (by simpa using ha)]
  simp

lemma presenceOk_iff (tol : ℚ) (ans ev : List ℚ) :
    presenceOk tol ans ev = true ↔
      ∀ a ∈ ans, ∃ e ∈ ev, numbersMatch tol a e = true := by
  simp [presenceOk, List.all_eq_true, List.any_eq_true]

/-! ### Query router (`src/retrieval/query_router.py`) -/

/-- `QueryRouter.table_keywords`, verbatim from the constructor. -/
def table_keywords : List String :=
  ["yoy", "year-over-year", "change", "growth", "ratio",
   "compared to", "versus", "vs", "percentage", "%",
   "segment", "total", "revenue", "expense", "debt", "equity",
   "fiscal year", "fy", "2022", "2023", "2024"]

/-- `QueryRouter.math_keywords`, verbatim from the constructor. -/
def math_keywords : List String :=
  ["calculate", "compute", "difference", "sum", "total",
   "ratio", "percentage", "change", "growth", "increase", "decrease"]

structure RouteInfo where
  query_type : String
  is_table_centric : Bool
  requires_math : Bool
  confidence : ℚ

/-- `QueryRouter._is_table_centric` on the lowercased query. -/
def isTableCentricQ (ql : List Char) : Bool :=
  decide (2 ≤ table_keywords.countP (fun kw => containsSub ql kw.data))

/-- `QueryRouter._requires_math` on the lowercased query. -/
def requiresMathQ (ql : List Char) : Bool :=
  math_keywords.any (fun kw => containsSub ql kw.data)

/-- `QueryRouter.route`. -/
def route (query : String) : RouteInfo :=
  let ql := lowers query.data
  let itc := isTableCentricQ ql
  let rm := requiresMathQ ql
  { query_type :=
      if itc && rm then "numeric_table"
      else if itc then "table_lookup"
      else if rm then "numeric_text"
      else "narrative",
    is_table_centric := itc,
    requires_math := rm,
    confidence := if itc then 0.8 else 0.6 }

/-! ### Ordered dictionaries

Python dicts preserve insertion order; they are embedded as association
lists.  `setK` models `d[k] = v` (update in place, append if new), `modK`
models an in-place mutation of the stored value, `getK` a lookup. -/

def getK {β : Type} : List (String × β) → String → Option β
  | [], _ => none
  | (k', v) :: rest, k => if k' = k then some v else getK rest k

def setK {β : Type} : List (String × β) → String → β → List (String × β)
  | [], k, v => [(k, v)]
  | (k', v') :: rest, k, v =>
    if k' = k then (k', v) :: rest else (k', v') :: setK rest k v

def modK {β : Type} (f : β → β) : List (String × β) → String → List (String × β)
  | [], _ => []
  | (k', v') :: rest, k =>
    if k' = k then (k', f v') :: rest else (k', v') :: modK f rest k

lemma getK_setK {β : Type} (m : List (String × β)) (k : String) (v : β) (k' : String) :
    getK (setK m k v) k' = if k = k' then some v else getK m k' := by
  induction m with
  | nil =>
    by_cases hk : k = k' <;> simp [setK, getK, hk]
  | cons e rest ih =>
    obtain ⟨k₀, v₀⟩ := e
    by_cases h0 : k₀ = k
    · subst h0
      by_cases hk : k₀ = k' <;> simp [setK, getK, hk]
    · have h0' : ¬ k = k₀ := fun he => h0 he.symm
      by_cases hk : k₀ = k'
      · subst hk
        simp [setK, getK, h0, h0']
      · simp [setK, getK, h0, hk, ih]

lemma getK_modK {β : Type} (f : β → β) (m : List (String × β)) (k k' : String) :
    getK (modK f m k) k' = if k = k' then (getK m k').map f else getK m k' := by
  induction m with
  | nil => by_cases hk : k = k' <;> simp [modK, getK, hk]
  | cons e rest ih =>
    obtain ⟨k₀, v₀⟩ := e
    by_cases h0 : k₀ = k
    · subst h0
      by_cases hk : k₀ = k' <;> simp [modK, getK, hk]
    · have h0' : ¬ k = k₀ := fun he => h0 he.symm
      by_cases hk : k₀ = k'
      · subst hk
        simp [modK, getK, h0, h0']
      · simp [modK, getK, h0, hk, ih]

lemma keys_modK {β : Type} (f : β → β) (m : List (String × β)) (k : String) :
    (modK f m k).map Prod.fst = m.map Prod.fst := by
  induction m with
  | nil => rfl
  | cons e rest ih =>
    obtain ⟨k₀, v₀⟩ := e
    by_cases h0 : k₀ = k <;> simp [modK, h0, ih]

lemma keys_setK {β : Type} (m : List (String × β)) (k : String) (v : β) :
    (setK m k v).map Prod.fst =
      if k ∈ m.map Prod.fst then m.map Prod.fst else m.map Prod.fst ++ [k] := by
  induction m with
  | nil => simp [setK]
  | cons e rest ih =>
    obtain ⟨k₀, v₀⟩ := e
    by_cases h0 : k₀ = k
    · subst h0; simp [setK]
    · have h0' : ¬ k = k₀ := fun he => h0 he.symm
      simp only [setK, if_neg h0, List.map_cons, ih]
      by_cases hk : k ∈ rest.map Prod.fst
      · simp [hk, h0']
      · simp [hk, h0']

lemma nodup_setK {β : Type} (m : List (String × β)) (k : String) (v : β)
    (h : (m.map Prod.fst).Nodup) : ((setK m k v).map Prod.fst).Nodup := by
  rw [keys_setK]
  by_cases hk : k ∈ m.map Prod.fst
  · simpa [hk] using h
  · simp only [hk, if_false]
    simp [List.nodup_append, h, hk]

lemma nodup_modK {β : Type} (f : β → β) (m : List (String × β)) (k : String)
    (h : (m.map Prod.fst).Nodup) : ((modK f m k).map Prod.fst).Nodup := by
  rw [keys_modK]; exact h

lemma mem_setK {β : Type} (m : List (String × β)) (k : String) (v : β)
    (e : String × β) (he : e ∈ setK m k v) : e = (k, v) ∨ e ∈ m := by
  induction m with
  | nil => simpa [setK] using he
  | cons e₀ rest ih =>
    obtain ⟨k₀, v₀⟩ := e₀
    by_cases h0 : k₀ = k
    · subst h0
      have he' : e = (k₀, v) ∨ e ∈ rest := by simpa [setK] using he
      rcases he' with h | h
      · exact Or.inl (by rw [h])
      · exact Or.inr (List.mem_cons_of_mem _ h)
    · have he' : e = (k₀, v₀) ∨ e ∈ setK rest k v := by simpa [setK, h0] using he
      rcases he' with h | h
      · exact Or.inr (by simp [h])
      · rcases ih h with h' | h'
        · exact Or.inl h'
        · exact Or.inr (List.mem_cons_of_mem _ h')

lemma mem_modK {β : Type} (f : β → β) (m : List (String × β)) (k : String)
    (e : String × β) (he : e ∈ modK f m k) :
    e ∈ m ∨ ∃ v, (e.1, v) ∈ m ∧ e = (e.1, f v) := by
  induction m with
  | nil => simp [modK] at he
  | cons e₀ rest ih =>
    obtain ⟨k₀, v₀⟩ := e₀
    by_cases h0 : k₀ = k
    · subst h0
      have he' : e = (k₀, f v₀) ∨ e ∈ rest := by simpa [modK] using he
      rcases he' with h | h
      · exact Or.inr ⟨v₀, by simp [h], by simp [h]⟩
      · exact Or.inl (List.mem_cons_of_mem _ h)
    · have he' : e = (k₀, v₀) ∨ e ∈ modK f rest k := by simpa [modK, h0] using he
      rcases he' with h | h
      · exact Or.inl (by simp [h])
      · rcases ih h with h' | ⟨v, hv, hee⟩
        · exact Or.inl (List.mem_cons_of_mem _ h')
        · exact Or.inr ⟨v, List.mem_cons_of_mem _ hv, hee⟩

lemma length_setK {β : Type} (m : List (String × β)) (k : String) (v : β) :
    m.length ≤ (setK m k v).length := by
  induction m with
  | nil => simp [setK]
  | cons e rest ih =>
    obtain ⟨k₀, v₀⟩ := e
    by_cases h0 : k₀ = k
    · simp [setK, h0]
    · simp only [setK, if_neg h0, List.length_cons, Nat.add_le_add_iff_right]
      exact ih

lemma length_modK {β : Type} (f : β → β) (m : List (String × β)) (k : String) :
    (modK f m k).length = m.length := by
  have h := congrArg List.length (keys_modK f m k)
  simpa using h

/-- The value stored for key `k`, with `0` for an absent key. -/
def valQ {β : Type} (val : β → ℚ) (m : List (String × β)) (k : String) : ℚ :=
  ((getK m k).map val).getD 0

/-! ### Generic dict-building folds

Both fusion strategies build a dict in two passes: the first pass assigns
`d[key] = value` for each result (replacing on repeats), the second adds onto
existing keys and inserts new ones.  The two passes are factored here over the
input type, the key function and the stored values. -/

def dictStep1 {ι β : Type} (keyf : ι → String) (mkv : ι → β)
    (m : List (String × β)) (x : ι) : List (String × β) :=
  setK m (keyf x) (mkv x)

def dictStep2 {ι β : Type} (keyf : ι → String) (mkv : ι → β) (updf : ι → β → β)
    (m : List (String × β)) (x : ι) : List (String × β) :=
  if (getK m (keyf x)).isSome then modK (updf x) m (keyf x)
  else setK m (keyf x) (mkv x)

/-- The value assigned by the last occurrence of key `k` in the inputs. -/
def lastVal {ι β : Type} (keyf : ι → String) (mkv : ι → β) (xs : List ι) (k : String) :
    Option β :=
  ((xs.filter (fun x => keyf x == k)).getLast?).map mkv

lemma getLast?_cons_or {α : Type} (a : α) (l : List α) :
    (a :: l).getLast? = (l.getLast?).or (some a) := by
  induction l generalizing a with
  | nil => rfl
  | cons b t ih =>
    rw [List.getLast?_cons_cons, ih b]
    cases t.getLast? <;> rfl

lemma map_or {α β : Type} (f : α → β) (o o' : Option α) :
    (o.or o').map f = (o.map f).or (o'.map f) := by
  cases o <;> rfl

lemma getK_foldl_step1 {ι β : Type} (keyf : ι → String) (mkv : ι → β)
    (xs : List ι) (m : List (String × β)) (k : String) :
    getK (xs.foldl (dictStep1 keyf mkv) m) k = (lastVal keyf mkv xs k).or (getK m k) := by
  induction xs generalizing m with
  | nil =>
    simp only [List.foldl_nil, lastVal, List.filter_nil, List.getLast?_nil, Option.map_none']
    cases getK m k <;> rfl
  | cons x xs ih =>
    rw [List.foldl_cons, ih]
    by_cases hx : keyf x = k
    · have hfil : (x :: xs).filter (fun y => keyf y == k)
          = x :: xs.filter (fun y => keyf y == k) := by
        simp [List.filter_cons, hx]
      rw [dictStep1, getK_setK, if_pos hx]
      simp only [lastVal, hfil, getLast?_cons_or, map_or, Option.map_some']
      cases Option.map mkv ((xs.filter (fun y => keyf y == k)).getLast?) <;> rfl
    · have hfil : (x :: xs).filter (fun y => keyf y == k)
          = xs.filter (fun y => keyf y == k) := by
        simp [List.filter_cons, hx]
      rw [dictStep1, getK_setK, if_neg hx]
      simp only [lastVal, hfil]

lemma valQ_step2 {ι β : Type} (keyf : ι → String) (mkv : ι → β) (updf : ι → β → β)
    (val : β → ℚ) (contrib : ι → ℚ)
    (hmk : ∀ x, val (mkv x) = contrib x)
    (hupd : ∀ x v, val (updf x v) = val v + contrib x)
    (m : List (String × β)) (x : ι) (k : String) :
    valQ val (dictStep2 keyf mkv updf m x) k
      = valQ val m k + (if keyf x = k then contrib x else 0) := by
  unfold dictStep2 valQ
  by_cases hp : (getK m (keyf x)).isSome
  · rw [if_pos hp, getK_modK]
    by_cases hk : keyf x = k
    · subst hk
      obtain ⟨v, hv⟩ := Option.isSome_iff_exists.mp hp
      simp [hv, hupd]
    · simp [hk]
  · rw [if_neg hp, getK_setK]
    by_cases hk : keyf x = k
    · subst hk
      have hnone : getK m (keyf x) = none := by
        cases hg : getK m (keyf x)
        · rfl
        · rw [hg] at hp; simp at hp
      simp [hnone, hmk]
    · simp [hk]

lemma valQ_foldl_step2 {ι β : Type} (keyf : ι → String) (mkv : ι → β) (updf : ι → β → β)
    (val : β → ℚ) (contrib : ι → ℚ)
    (hmk : ∀ x, val (mkv x) = contrib x)
    (hupd : ∀ x v, val (updf x v) = val v + contrib x)
    (xs : List ι) (m : List (String × β)) (k : String) :
    valQ val (xs.foldl (dictStep2 keyf mkv updf) m) k
      = valQ val m k + ((xs.filter (fun x => keyf x == k)).map contrib).sum := by
  induction xs generalizing m with
  | nil => simp
  | cons x xs ih =>
    rw [List.foldl_cons, ih, valQ_step2 keyf mkv updf val contrib hmk hupd]
    by_cases hk : keyf x = k
    · simp [List.filter_cons, hk]
      ring
    · simp [List.filter_cons, hk]

lemma inv_foldl_step1 {ι β : Type} (keyf : ι → String) (mkv : ι → β)
    (P : String × β → Prop) (xs : List ι) (m : List (String × β))
    (hm : ∀ e ∈ m, P e) (hx : ∀ x ∈ xs, P (keyf x, mkv x)) :
    ∀ e ∈ xs.foldl (dictStep1 keyf mkv) m, P e := by
  induction xs generalizing m with
  | nil => simpa using hm
  | cons x xs ih =>
    rw [List.foldl_cons]
    refine ih _ ?_ (fun y hy => hx y (List.mem_cons_of_mem x hy))
    intro e he
    rcases mem_setK _ _ _ _ he with h | h
    · rw [h]; exact hx x (List.mem_cons_self x xs)
    · exact hm e h

lemma inv_foldl_step2 {ι β : Type} (keyf : ι → String) (mkv : ι → β) (updf : ι → β → β)
    (P : String × β → Prop) (xs : List ι) (m : List (String × β))
    (hm : ∀ e ∈ m, P e) (hx : ∀ x ∈ xs, P (keyf x, mkv x))
    (hupd : ∀ x ∈ xs, ∀ k v, P (k, v) → P (k, updf x v)) :
    ∀ e ∈ xs.foldl (dictStep2 keyf mkv updf) m, P e := by
  induction xs generalizing m with
  | nil => simpa using hm
  | cons x xs ih =>
    rw [List.foldl_cons]
    refine ih _ ?_ (fun y hy => hx y (List.mem_cons_of_mem x hy))
      (fun y hy => hupd y (List.mem_cons_of_mem x hy))
    intro e he
    unfold dictStep2 at he
    by_cases hp : (getK m (keyf x)).isSome
    · rw [if_pos hp] at he
      rcases mem_modK _ _ _ _ he with h | ⟨v, hv, hee⟩
      · exact hm e h
      · rw [hee]
        exact hupd x (List.mem_cons_self x xs) e.1 v (hm _ hv)
    · rw [if_neg hp] at he
      rcases mem_setK _ _ _ _ he with h | h
      · rw [h]; exact hx x (List.mem_cons_self x xs)
      · exact hm e h

lemma nodup_foldl_step1 {ι β : Type} (keyf : ι → String) (mkv : ι → β)
    (xs : List ι) (m : List (String × β)) (h : (m.map Prod.fst).Nodup) :
    (((xs.foldl (dictStep1 keyf mkv) m)).map Prod.fst).Nodup := by
  induction xs generalizing m with
  | nil => simpa using h
  | cons x xs ih => exact ih _ (nodup_setK _ _ _ h)

lemma nodup_foldl_step2 {ι β : Type} (keyf : ι → String) (mkv : ι → β) (updf : ι → β → β)
    (xs : List ι) (m : List (String × β)) (h : (m.map Prod.fst).Nodup) :
    (((xs.foldl (dictStep2 keyf mkv updf) m)).map Prod.fst).Nodup := by
  induction xs generalizing m with
  | nil => simpa using h
  | cons x xs ih =>
    rw [List.foldl_cons]
    refine ih _ ?_
    unfold dictStep2
    by_cases hp : (getK m (keyf x)).isSome
    · rw [if_pos hp]; exact nodup_modK _ _ _ h
    · rw [if_neg hp]; exact nodup_setK _ _ _ h

lemma length_foldl_step1 {ι β : Type} (keyf : ι → String) (mkv : ι → β)
    (xs : List ι) (m : List (String × β)) :
    m.length ≤ (xs.foldl (dictStep1 keyf mkv) m).length := by
  induction xs generalizing m with
  | nil => simp
  | cons x xs ih =>
    rw [List.foldl_cons]
    exact le_trans (length_setK _ _ _) (ih _)

lemma length_foldl_step2 {ι β : Type} (keyf : ι → String) (mkv : ι → β) (updf : ι → β → β)
    (xs : List ι) (m : List (String × β)) :
    m.length ≤ (xs.foldl (dictStep2 keyf mkv updf) m).length := by
  induction xs generalizing m with
  | nil => simp
  | cons x xs ih =>
    rw [List.foldl_cons]
    refine le_trans ?_ (ih _)
    unfold dictStep2
    by_cases hp : (getK m (keyf x)).isSome
    · rw [if_pos hp, length_modK]
    · rw [if_neg hp]; exact length_setK _ _ _

/-! ### Stable descending sort

`sorted(values, key=score, reverse=True)` is a stable descending sort: it is
reproduced by insertion where a new element passes over all elements with a
greater-or-equal key, preserving the original order of ties. -/

def insertDescBy {α : Type} (f : α → ℚ) (x : α) : List α → List α
  | [] => [x]
  | y :: rest => if f x ≤ f y then y :: insertDescBy f x rest else x :: y :: rest

def sortDescBy {α : Type} (f : α → ℚ) (l : List α) : List α :=
  l.foldl (fun acc x => insertDescBy f x acc) []

def SortedDescBy {α : Type} (f : α → ℚ) (l : List α) : Prop :=
  l.Pairwise (fun a b => f b ≤ f a)

lemma insertDescBy_perm {α : Type} (f : α → ℚ) (x : α) (l : List α) :
    (insertDescBy f x l).Perm (x :: l) := by
  induction l with
  | nil => exact List.Perm.refl _
  | cons y rest ih =>
    rw [insertDescBy]
    by_cases h : f x ≤ f y
    · rw [if_pos h]
      exact (ih.cons y).trans (List.Perm.swap x y rest)
    · rw [if_neg h]

lemma sortDescBy_perm_aux {α : Type} (f : α → ℚ) (l acc : List α) :
    (l.foldl (fun acc x => insertDescBy f x acc) acc).Perm (acc ++ l) := by
  induction l generalizing acc with
  | nil => simp
  | cons x xs ih =>
    rw [List.foldl_cons]
    refine (ih _).trans ?_
    refine (List.Perm.append_right xs (insertDescBy_perm f x acc)).trans ?_
    exact List.perm_middle.symm

lemma sortDescBy_perm {α : Type} (f : α → ℚ) (l : List α) :
    (sortDescBy f l).Perm l := by
  simpa using sortDescBy_perm_aux f l []

lemma mem_insertDescBy {α : Type} (f : α → ℚ) (x : α) (l : List α) (y : α) :
    y ∈ insertDescBy f x l ↔ y = x ∨ y ∈ l := by
  rw [(insertDescBy_perm f x l).mem_iff]
  simp

lemma sorted_insertDescBy {α : Type} (f : α → ℚ) (x : α) (l : List α)
    (h : SortedDescBy f l) : SortedDescBy f (insertDescBy f x l) := by
  simp only [SortedDescBy] at h ⊢
  induction l with
  | nil => simp [insertDescBy]
  | cons y rest ih =>
    rw [List.pairwise_cons] at h
    rw [insertDescBy]
    by_cases hxy : f x ≤ f y
    · rw [if_pos hxy, List.pairwise_cons]
      constructor
      · intro z hz
        rcases (mem_insertDescBy f x rest z).mp hz with hz | hz
        · rw [hz]; exact hxy
        · exact h.1 z hz
      · exact ih h.2
    · rw [if_neg hxy, List.pairwise_cons]
      refine ⟨?_, ?_⟩
      · intro z hz
        rcases List.mem_cons.mp hz with hz | hz
        · rw [hz]; exact le_of_not_le hxy
        · exact le_trans (h.1 z hz) (le_of_not_le hxy)
      · rw [List.pairwise_cons]
        exact h

lemma sorted_sortDescBy_aux {α : Type} (f : α → ℚ) (l acc : List α)
    (h : SortedDescBy f acc) :
    SortedDescBy f (l.foldl (fun acc x => insertDescBy f x acc) acc) := by
  induction l generalizing acc with
  | nil => simpa using h
  | cons x xs ih =>
    rw [List.foldl_cons]
    exact ih _ (sorted_insertDescBy f x acc h)

lemma sorted_sortDescBy {α : Type} (f : α → ℚ) (l : List α) :
    SortedDescBy f (sortDescBy f l) :=
  sorted_sortDescBy_aux f l [] (by simp [SortedDescBy])

/-! ### Weighted score fusion (`HierarchicalRetriever._merge_results`)

A retrieval result carries `content`, `metadata` and `score`; the `{**result,
'score': ...}` updates keep content and metadata and replace the score.  The
merge keys each result by the first 50 characters of its content
(`result['content'][:50]`), weights dense scores by `alpha` (default `0.7` at
the call sites) and BM25 scores by `1 - alpha`, accumulating into a dict, and
finally sorts the dict values by score, descending and stable. -/

structure SR where
  content : String
  metadata : String
  score : ℚ
deriving DecidableEq

/-- The merge key `result['content'][:50]`: the first 50 characters of the
content. -/
def keyOfSR (r : SR) : String := String.mk (r.content.data.take 50)

def mergeResults (dense bm25 : List SR) (alpha : ℚ) : List SR :=
  let m1 := dense.foldl
    (dictStep1 keyOfSR (fun r => {r with score := alpha * r.score})) []
  let m2 := bm25.foldl
    (dictStep2 keyOfSR (fun r => {r with score := (1 - alpha) * r.score})
      (fun r v => {v with score := v.score + (1 - alpha) * r.score})) m1
  sortDescBy SR.score (m2.map Prod.snd)

/-- Sum of the scores that results with key `k` carry in a result list. -/
def scoreOf (l : List SR) (k : String) : ℚ :=
  ((l.filter (fun r => keyOfSR r == k)).map SR.score).sum

/-- The dense contribution the merge actually keeps for a key: that of the
last dense occurrence, weighted by `alpha` (earlier occurrences are
overwritten by `merged[key] = {...}`). -/
def lastDenseContrib (alpha : ℚ) (dense : List SR) (k : String) : ℚ :=
  (((dense.filter (fun r => keyOfSR r == k)).getLast?).map
    (fun r => alpha * r.score)).getD 0

lemma scoreOf_perm (l l' : List SR) (k : String) (h : l.Perm l') :
    scoreOf l k = scoreOf l' k :=
  List.Perm.sum_eq (List.Perm.map _ (h.filter _))

lemma scoreOf_map_snd_zero (m : List (String × SR)) (k : String)
    (hok : ∀ e ∈ m, e.1 = keyOfSR e.2) (hno : k ∉ m.map Prod.fst) :
    scoreOf (m.map Prod.snd) k = 0 := by
  induction m with
  | nil => rfl
  | cons e rest ih =>
    obtain ⟨k₀, v₀⟩ := e
    have hk₀ : k₀ = keyOfSR v₀ := hok (k₀, v₀) (List.mem_cons_self _ _)
    have hne : ¬ (keyOfSR v₀ == k) = true := by
      simp only [beq_iff_eq]
      intro he
      exact hno (by simp [hk₀, he])
    rw [List.map_cons, scoreOf, List.filter_cons, if_neg hne]
    exact ih (fun e he => hok e (List.mem_cons_of_mem _ he)) (fun hm => hno (by simp [hm]))

lemma scoreOf_map_snd (m : List (String × SR)) (k : String)
    (hnd : (m.map Prod.fst).Nodup) (hok : ∀ e ∈ m, e.1 = keyOfSR e.2) :
    scoreOf (m.map Prod.snd) k = valQ SR.score m k := by
  induction m with
  | nil => rfl
  | cons e rest ih =>
    obtain ⟨k₀, v₀⟩ := e
    have hk₀ : k₀ = keyOfSR v₀ := hok (k₀, v₀) (List.mem_cons_self _ _)
    rw [List.map_cons, List.nodup_cons] at hnd
    by_cases hk : keyOfSR v₀ = k
    · have hno : k ∉ rest.map Prod.fst := fun hm => hnd.1 (by rw [hk₀, hk]; exact hm)
      rw [List.map_cons, scoreOf, List.filter_cons, if_pos (by simp [hk]), List.map_cons,
        List.sum_cons]
      have hz := scoreOf_map_snd_zero rest k
        (fun e he => hok e (List.mem_cons_of_mem _ he)) hno
      rw [scoreOf] at hz
      rw [hz, valQ, getK, if_pos (by rw [hk₀, hk])]
      simp
    · rw [List.map_cons, scoreOf, List.filter_cons, if_neg (by simp [hk])]
      rw [valQ, getK, if_neg (by rw [hk₀]; exact hk)]
      exact ih hnd.2 (fun e he => hok e (List.mem_cons_of_mem _ he))

lemma valQ_merge_m1 (alpha : ℚ) (dense : List SR) (k : String) :
    valQ SR.score
      (dense.foldl (dictStep1 keyOfSR (fun r => {r with score := alpha * r.score})) []) k
      = lastDenseContrib alpha dense k := by
  rw [valQ, getK_foldl_step1]
  rw [show getK ([] : List (String × SR)) k = none from rfl]
  rw [lastVal, lastDenseContrib]
  cases hL : (dense.filter (fun r => keyOfSR r == k)).getLast? <;> simp [hL]

lemma sum_map_mul_left_q (c : ℚ) (l : List ℚ) :
    (l.map (fun q => c * q)).sum = c * l.sum := by
  induction l with
  | nil => simp
  | cons x xs ih => simp [ih, mul_add]

set_option maxHeartbeats 1000000 in
/-- Score characterization of the weighted merge: the fused score of a key is
`alpha` times the score of its last dense occurrence (earlier dense
occurrences are replaced by `merged[key] = {...}`), plus `1 - alpha` times
the sum of all its BM25 occurrences. -/
lemma mergeResults_scoreOf (dense bm25 : List SR) (alpha : ℚ) (k : String) :
    scoreOf (mergeResults dense bm25 alpha) k
      = lastDenseContrib alpha dense k + (1 - alpha) * scoreOf bm25 k := by
  simp only [mergeResults]
  generalize hm1 : dense.foldl
    (dictStep1 keyOfSR (fun r => {r with score := alpha * r.score})) [] = m1
  generalize hm2 : bm25.foldl
    (dictStep2 keyOfSR (fun r => {r with score := (1 - alpha) * r.score})
      (fun r v => {v with score := v.score + (1 - alpha) * r.score})) m1 = m2
  rw [scoreOf_perm _ _ k (sortDescBy_perm SR.score (m2.map Prod.snd))]
  have hnd1 : (m1.map Prod.fst).Nodup := by
    rw [← hm1]
    exact nodup_foldl_step1 keyOfSR (fun r => {r with score := alpha * r.score})
      dense [] (by simp)
  have hnd2 : (m2.map Prod.fst).Nodup := by
    rw [← hm2]
    exact nodup_foldl_step2 keyOfSR (fun r => {r with score := (1 - alpha) * r.score})
      (fun r v => {v with score := v.score + (1 - alpha) * r.score}) bm25 m1 hnd1
  have hok1 : ∀ e ∈ m1, e.1 = keyOfSR e.2 := by
    rw [← hm1]
    exact inv_foldl_step1 keyOfSR (fun r => {r with score := alpha * r.score})
      (fun e => e.1 = keyOfSR e.2) dense [] (by simp) (fun x _ => rfl)
  have hok2 : ∀ e ∈ m2, e.1 = keyOfSR e.2 := by
    rw [← hm2]
    exact inv_foldl_step2 keyOfSR (fun r => {r with score := (1 - alpha) * r.score})
      (fun r v => {v with score := v.score + (1 - alpha) * r.score})
      (fun e => e.1 = keyOfSR e.2) bm25 m1 hok1
      (fun x _ => rfl) (fun x _ k' v hv => hv)
  rw [scoreOf_map_snd m2 k hnd2 hok2]
  rw [← hm2, valQ_foldl_step2 keyOfSR (fun r => {r with score := (1 - alpha) * r.score})
    (fun r v => {v with score := v.score + (1 - alpha) * r.score}) SR.score
    (fun r => (1 - alpha) * r.score) (fun x => rfl) (fun x v => rfl)]
  rw [← hm1, valQ_merge_m1]
  congr 1
  rw [scoreOf, show (fun r : SR => (1 - alpha) * r.score)
    = (fun q => (1 - alpha) * q) ∘ SR.score from rfl, ← List.map_map, sum_map_mul_left_q]

/-! ### Reciprocal rank fusion (`HybridSearcher.fuse_results`)

Results are keyed by `result.get('id', str(result))`, modelled as an `id`
field.  A document at 0-based rank `r` contributes `weight / (r + 1)`; dense
ranks assign (replacing repeats), BM25 ranks add onto existing keys.  The
constructor normalizes the two weights to sum to 1; `fuse_results` then sorts
the `(id, score)` pairs by score descending and truncates to `top_k`. -/

structure FR where
  id : String
deriving DecidableEq

def fuseDict (dw bw : ℚ) (dense bm25 : List FR) : List (String × ℚ) :=
  bm25.enum.foldl
    (dictStep2 (fun p => p.2.id) (fun p => bw / ((p.1 : ℚ) + 1))
      (fun p v => v + bw / ((p.1 : ℚ) + 1)))
    (dense.enum.foldl (dictStep1 (fun p => p.2.id) (fun p => dw / ((p.1 : ℚ) + 1))) [])

def fuse_results (dense_weight bm25_weight : ℚ) (dense bm25 : List FR) (top_k : ℕ) :
    List (String × ℚ) :=
  let total := dense_weight + bm25_weight
  (sortDescBy Prod.snd
    (fuseDict (dense_weight / total) (bm25_weight / total) dense bm25)).take top_k

/-- Sum of the fused scores carried by pairs with document id `k`. -/
def scoreOfPairs (l : List (String × ℚ)) (k : String) : ℚ :=
  ((l.filter (fun p => p.1 == k)).map Prod.snd).sum

/-- The dense contribution the RRF dict keeps for a key: that of the last
dense occurrence (earlier dense ranks are overwritten). -/
def lastRRF (dw : ℚ) (dense : List FR) (k : String) : ℚ :=
  (((dense.enum.filter (fun p => p.2.id == k)).getLast?).map
    (fun p => dw / ((p.1 : ℚ) + 1))).getD 0

/-- The summed BM25 contributions of all occurrences of a key. -/
def sumRRF (bw : ℚ) (bm25 : List FR) (k : String) : ℚ :=
  ((bm25.enum.filter (fun p => p.2.id == k)).map (fun p => bw / ((p.1 : ℚ) + 1))).sum

lemma scoreOfPairs_perm (l l' : List (String × ℚ)) (k : String) (h : l.Perm l') :
    scoreOfPairs l k = scoreOfPairs l' k :=
  List.Perm.sum_eq (List.Perm.map _ (h.filter _))

lemma scoreOfPairs_zero (m : List (String × ℚ)) (k : String)
    (hno : k ∉ m.map Prod.fst) : scoreOfPairs m k = 0 := by
  induction m with
  | nil => rfl
  | cons e rest ih =>
    obtain ⟨k₀, v₀⟩ := e
    have hne : ¬ (k₀ == k) = true := by
      simp only [beq_iff_eq]
      intro he
      exact hno (by simp [he])
    rw [scoreOfPairs, List.filter_cons, if_neg hne]
    exact ih (fun hm => hno (by simp [hm]))

lemma scoreOfPairs_nodup (m : List (String × ℚ)) (k : String)
    (hnd : (m.map Prod.fst).Nodup) : scoreOfPairs m k = valQ id m k := by
  induction m with
  | nil => rfl
  | cons e rest ih =>
    obtain ⟨k₀, v₀⟩ := e
    rw [List.map_cons, List.nodup_cons] at hnd
    by_cases hk : k₀ = k
    · have hno : k ∉ rest.map Prod.fst := fun hm => hnd.1 (by rw [hk]; exact hm)
      rw [scoreOfPairs, List.filter_cons, if_pos (by simp [hk]), List.map_cons, List.sum_cons]
      have hz := scoreOfPairs_zero rest k hno
      rw [scoreOfPairs] at hz
      rw [hz, valQ, getK, if_pos hk]
      simp
    · rw [scoreOfPairs, List.filter_cons, if_neg (by simp [hk])]
      rw [valQ, getK, if_neg hk]
      exact ih hnd.2

lemma valQ_fuse_m1 (dw : ℚ) (dense : List FR) (k : String) :
    valQ id
      (dense.enum.foldl
        (dictStep1 (fun p => p.2.id) (fun p => dw / ((p.1 : ℚ) + 1))) []) k
      = lastRRF dw dense k := by
  rw [valQ, getK_foldl_step1]
  rw [show getK ([] : List (String × ℚ)) k = none from rfl]
  rw [lastVal, lastRRF]
  cases hL : (dense.enum.filter (fun p => p.2.id == k)).getLast? <;> simp [hL]

set_option maxHeartbeats 1000000 in
/-- Score characterization of reciprocal rank fusion before truncation: the
fused score of a key is the contribution of its last dense rank (earlier
dense ranks are replaced by `scores[doc_id] = ...`) plus the sum of the
contributions of all its BM25 ranks. -/
lemma fuseDict_scoreOf (dw bw : ℚ) (dense bm25 : List FR) (k : String) :
    scoreOfPairs (sortDescBy Prod.snd (fuseDict dw bw dense bm25)) k
      = lastRRF dw dense k + sumRRF bw bm25 k := by
  simp only [fuseDict]
  generalize hm1 : dense.enum.foldl
    (dictStep1 (fun p => p.2.id) (fun p => dw / ((p.1 : ℚ) + 1))) [] = m1
  generalize hm2 : bm25.enum.foldl
    (dictStep2 (fun p => p.2.id) (fun p => bw / ((p.1 : ℚ) + 1))
      (fun p v => v + bw / ((p.1 : ℚ) + 1))) m1 = m2
  rw [scoreOfPairs_perm _ _ k (sortDescBy_perm Prod.snd m2)]
  have hnd1 : (m1.map Prod.fst).Nodup := by
    rw [← hm1]
    exact nodup_foldl_step1 (fun p => p.2.id) (fun p => dw / ((p.1 : ℚ) + 1))
      dense.enum [] (by simp)
  have hnd2 : (m2.map Prod.fst).Nodup := by
    rw [← hm2]
    exact nodup_foldl_step2 (fun p => p.2.id) (fun p => bw / ((p.1 : ℚ) + 1))
      (fun p v => v + bw / ((p.1 : ℚ) + 1)) bm25.enum m1 hnd1
  rw [scoreOfPairs_nodup m2 k hnd2]
  have hv2 := valQ_foldl_step2 (fun p : ℕ × FR => p.2.id)
    (fun p : ℕ × FR => bw / ((p.1 : ℚ) + 1))
    (fun (p : ℕ × FR) (v : ℚ) => v + bw / ((p.1 : ℚ) + 1)) id
    (fun p : ℕ × FR => bw / ((p.1 : ℚ) + 1))
    (fun x => rfl) (fun x v => rfl) bm25.enum m1 k
  rw [← hm2, hv2]
  rw [← hm1, valQ_fuse_m1]
  rfl

/-! ### Stage-B retrieval (`HierarchicalRetriever._retrieve_tables` / `_retrieve_text`)

The FAISS search call and the embedding model are external collaborators: a
branch receives the search output as a list of `(index, distance)` pairs
(FAISS indices are signed 64-bit integers, `-1` marking missing results).
List subscription follows Python semantics: negative indices wrap, and a
position outside `[-len, len)` raises (`none`).  `corpus.bm25` holds the
BM25 scores `get_scores(query_tokens)` would return for the query when the
corpus has a BM25 index (`'bm25' in data`), `none` otherwise. -/

def pyGet {α : Type} (l : List α) (i : ℤ) : Option α :=
  if 0 ≤ i then l[i.toNat]?
  else if i + l.length < 0 then none
  else l[(i + l.length).toNat]?

structure CorpusData where
  docs : List String
  metadata : List String
  bm25 : Option (List ℚ)

/-- The dense-result loop of `_retrieve_tables`: positions at or beyond the
corpus length are skipped (`continue`), the rest are subscripted. -/
def collectTable (docs meta : List String) : List (ℤ × ℚ) → Option (List SR)
  | [] => some []
  | (idx, dist) :: rest =>
    if (docs.length : ℤ) ≤ idx then collectTable docs meta rest
    else
      match pyGet meta idx, pyGet docs idx with
      | some m, some c =>
        (collectTable docs meta rest).map
          (fun t => {content := c, metadata := m, score := 1 / (1 + dist)} :: t)
      | _, _ => none

/-- The dense-result loop of `_retrieve_text`: no bounds check at all, every
position is subscripted directly. -/
def collectDense (docs meta : List String) : List (ℤ × ℚ) → Option (List SR)
  | [] => some []
  | (idx, dist) :: rest =>
    match pyGet docs idx, pyGet meta idx with
    | some c, some m =>
      (collectDense docs meta rest).map
        (fun t => {content := c, metadata := m, score := 1 / (1 + dist)} :: t)
    | _, _ => none

/-- `np.argsort(scores)[::-1]` — descending positions.  NumPy's default sort
leaves the order of ties unspecified; the model fixes ties to ascending
index. -/
def argsortDesc (scores : List ℚ) : List ℕ :=
  (sortDescBy Prod.snd scores.enum).map Prod.fst

/-- The result loop of `_bm25_search` over the top-k positions. -/
def collectBm (docs meta : List String) (scores : List ℚ) : List ℕ → Option (List SR)
  | [] => some []
  | i :: rest =>
    match docs[i]?, meta[i]?, scores[i]? with
    | some c, some m, some s =>
      (collectBm docs meta scores rest).map
        (fun t => {content := c, metadata := m, score := s} :: t)
    | _, _, _ => none

/-- `HierarchicalRetriever._bm25_search`. -/
def bm25Search (scores : List ℚ) (docs meta : List String) (k : ℕ) : Option (List SR) :=
  collectBm docs meta scores ((argsortDesc scores).take k)

/-- `HierarchicalRetriever._retrieve_text`; `7/10` is the default `alpha` of
`_merge_results`. -/
def retrieveText (txt : CorpusData) (txtSearch : List (ℤ × ℚ)) (k : ℕ)
    (useHybrid : Bool) : Option (List SR) :=
  match collectDense txt.docs txt.metadata txtSearch with
  | none => none
  | some dense =>
    match useHybrid, txt.bm25 with
    | true, some scores =>
      match bm25Search scores txt.docs txt.metadata k with
      | none => none
      | some b => some ((mergeResults dense b (7 / 10)).take k)
    | _, _ => some (dense.take k)

/-- `HierarchicalRetriever._retrieve_tables`: an empty table corpus falls
back to `_retrieve_text` (whose own search output is `txtSearch`). -/
def retrieveTables (tab txt : CorpusData) (tabSearch txtSearch : List (ℤ × ℚ))
    (k : ℕ) (useHybrid : Bool) : Option (List SR) :=
  if tab.docs.isEmpty then retrieveText txt txtSearch k useHybrid
  else
    match collectTable tab.docs tab.metadata tabSearch with
    | none => none
    | some dense =>
      match useHybrid, tab.bm25 with
      | true, some scores =>
        match bm25Search scores tab.docs tab.metadata k with
        | none => none
        | some b => some ((mergeResults dense b (7 / 10)).take k)
      | _, _ => some (dense.take k)

/-! ### Evaluation metric (`compute_recall_at_k`) -/

/-- `compute_recall_at_k`: the retrieved ranking is cut at `k`, deduplicated
(`set(...)`), intersected with the relevant set, and normalized by the number
of relevant items; an empty relevant set scores 0. -/
def compute_recall_at_k {α : Type} [DecidableEq α] (retrieved : List α)
    (relevant : Finset α) (k : ℕ) : ℚ :=
  if relevant.card = 0 then 0
  else (((retrieved.take k).toFinset ∩ relevant).card : ℚ) / (relevant.card : ℚ)

/-! ### Support lemmas for the stage-B branches -/

lemma pyGet_mem {α : Type} (l : List α) (i : ℤ) (a : α) (h : pyGet l i = some a) :
    a ∈ l := by
  unfold pyGet at h
  split at h
  · exact List.getElem?_mem h
  · split at h
    · exact absurd h (by simp)
    · exact List.getElem?_mem h

lemma collectDense_none (docs meta : List String) (srch : List (ℤ × ℚ))
    (h : ∃ p ∈ srch, pyGet docs p.1 = none ∨ pyGet meta p.1 = none) :
    collectDense docs meta srch = none := by
  induction srch with
  | nil => simp at h
  | cons q rest ih =>
    obtain ⟨idx, dist⟩ := q
    obtain ⟨p, hp, hfail⟩ := h
    rcases List.mem_cons.mp hp with hp | hp
    · subst hp
      simp only [collectDense]
      rcases hfail with hf | hf
      · rw [show pyGet docs idx = none from hf]
        all_goals first
        | rfl
        | cases pyGet meta idx <;> rfl
      · rw [show pyGet meta idx = none from hf]
        all_goals first
        | rfl
        | cases pyGet docs idx <;> rfl
    · simp only [collectDense]
      cases h1 : pyGet docs idx with
      | none => rfl
      | some c =>
        cases h2 : pyGet meta idx with
        | none => rfl
        | some m =>
          rw [ih ⟨p, hp, hfail⟩]
          rfl

lemma collectDense_some (docs meta : List String) (srch : List (ℤ × ℚ))
    (h : ∀ p ∈ srch, (pyGet docs p.1).isSome ∧ (pyGet meta p.1).isSome) :
    ∃ l, collectDense docs meta srch = some l ∧ l.length = srch.length ∧
      ∀ r ∈ l, r.content ∈ docs := by
  induction srch with
  | nil => exact ⟨[], rfl, rfl, by simp⟩
  | cons q rest ih =>
    obtain ⟨idx, dist⟩ := q
    obtain ⟨hc, hm⟩ := h (idx, dist) (List.mem_cons_self (idx, dist) rest)
    obtain ⟨c, hc'⟩ := Option.isSome_iff_exists.mp hc
    obtain ⟨m, hm'⟩ := Option.isSome_iff_exists.mp hm
    have hc2 : pyGet docs idx = some c := hc'
    have hm2 : pyGet meta idx = some m := hm'
    obtain ⟨l, hl, hlen, hmem⟩ := ih (fun p hp => h p (List.mem_cons_of_mem _ hp))
    refine ⟨{content := c, metadata := m, score := 1 / (1 + dist)} :: l, ?_, ?_, ?_⟩
    · simp only [collectDense, hc2, hm2, hl, Option.map_some']
    · simp [hlen]
    · intro r hr
      rcases List.mem_cons.mp hr with hr | hr
      · subst hr
        exact pyGet_mem docs idx c hc2
      · exact hmem r hr

lemma collectTable_skip (docs meta : List String) (idx : ℤ) (dist : ℚ)
    (rest : List (ℤ × ℚ)) (h : (docs.length : ℤ) ≤ idx) :
    collectTable docs meta ((idx, dist) :: rest) = collectTable docs meta rest := by
  simp only [collectTable]
  rw [if_pos h]

lemma mem_enumFrom_lt {α : Type} (l : List α) (n : ℕ) (p : ℕ × α)
    (h : p ∈ l.enumFrom n) : p.1 < n + l.length := by
  induction l generalizing n with
  | nil => simp at h
  | cons x xs ih =>
    simp only [List.enumFrom] at h
    rcases List.mem_cons.mp h with h | h
    · subst h
      show n < n + (xs.length + 1)
      omega
    · have h2 := ih (n + 1) h
      show p.1 < n + (xs.length + 1)
      omega

lemma argsortDesc_lt (scores : List ℚ) (i : ℕ) (h : i ∈ argsortDesc scores) :
    i < scores.length := by
  simp only [argsortDesc] at h
  obtain ⟨p, hp, hpi⟩ := List.mem_map.mp h
  have hp' : p ∈ scores.enumFrom 0 :=
    (sortDescBy_perm Prod.snd scores.enum).subset hp
  have := mem_enumFrom_lt scores 0 p hp'
  omega

lemma collectBm_some (docs meta : List String) (scores : List ℚ) (idxs : List ℕ)
    (h : ∀ i ∈ idxs, i < docs.length ∧ i < meta.length ∧ i < scores.length) :
    ∃ l, collectBm docs meta scores idxs = some l ∧ ∀ r ∈ l, r.content ∈ docs := by
  induction idxs with
  | nil => exact ⟨[], rfl, by simp⟩
  | cons i rest ih =>
    obtain ⟨hd, hm, hs⟩ := h i (List.mem_cons_self i rest)
    obtain ⟨l, hl, hmem⟩ := ih (fun j hj => h j (List.mem_cons_of_mem _ hj))
    have h1 : docs[i]? = some docs[i] := List.getElem?_eq_getElem hd
    have h2 : meta[i]? = some meta[i] := List.getElem?_eq_getElem hm
    have h3 : scores[i]? = some scores[i] := List.getElem?_eq_getElem hs
    refine ⟨{content := docs[i], metadata := meta[i], score := scores[i]} :: l, ?_, ?_⟩
    · simp only [collectBm, h1, h2, h3, hl, Option.map_some']
    · intro r hr
      rcases List.mem_cons.mp hr with hr | hr
      · subst hr
        exact List.getElem_mem hd
      · exact hmem r hr

lemma bm25Search_some (scores : List ℚ) (docs meta : List String) (k : ℕ)
    (hd : scores.length ≤ docs.length) (hm : scores.length ≤ meta.length) :
    ∃ l, bm25Search scores docs meta k = some l ∧ ∀ r ∈ l, r.content ∈ docs := by
  unfold bm25Search
  apply collectBm_some
  intro i hi
  have hlt := argsortDesc_lt scores i (List.take_subset k (argsortDesc scores) hi)
  exact ⟨lt_of_lt_of_le hlt hd, lt_of_lt_of_le hlt hm, hlt⟩

lemma mergeResults_content_mem (dense bm25 : List SR) (alpha : ℚ) (r : SR)
    (hr : r ∈ mergeResults dense bm25 alpha) :
    (∃ x ∈ dense, x.content = r.content) ∨ (∃ x ∈ bm25, x.content = r.content) := by
  simp only [mergeResults] at hr
  generalize hm1 : dense.foldl
    (dictStep1 keyOfSR (fun r => {r with score := alpha * r.score})) [] = m1 at hr
  generalize hm2 : bm25.foldl
    (dictStep2 keyOfSR (fun r => {r with score := (1 - alpha) * r.score})
      (fun r v => {v with score := v.score + (1 - alpha) * r.score})) m1 = m2 at hr
  have hsub := (sortDescBy_perm SR.score (m2.map Prod.snd)).subset hr
  obtain ⟨e, he, he2⟩ := List.mem_map.mp hsub
  have hP : ∀ e ∈ m2,
      (∃ x ∈ dense, x.content = e.2.content) ∨ (∃ x ∈ bm25, x.content = e.2.content) := by
    rw [← hm2]
    refine inv_foldl_step2 keyOfSR (fun r => {r with score := (1 - alpha) * r.score})
      (fun r v => {v with score := v.score + (1 - alpha) * r.score})
      (fun e => (∃ x ∈ dense, x.content = e.2.content) ∨
        (∃ x ∈ bm25, x.content = e.2.content)) bm25 m1 ?_ ?_ ?_
    · rw [← hm1]
      exact inv_foldl_step1 keyOfSR (fun r => {r with score := alpha * r.score})
        (fun e => (∃ x ∈ dense, x.content = e.2.content) ∨
          (∃ x ∈ bm25, x.content = e.2.content)) dense [] (by simp)
        (fun x hx => Or.inl ⟨x, hx, rfl⟩)
    · exact fun x hx => Or.inr ⟨x, hx, rfl⟩
    · exact fun x _ k' v hv => hv
  rcases hP e he with ⟨x, hx, hxc⟩ | ⟨x, hx, hxc⟩
  · exact Or.inl ⟨x, hx, by rw [hxc, he2]⟩
  · exact Or.inr ⟨x, hx, by rw [hxc, he2]⟩

lemma mergeResults_ne_nil (dense bm25 : List SR) (alpha : ℚ) (h : dense ≠ []) :
    mergeResults dense bm25 alpha ≠ [] := by
  simp only [mergeResults]
  generalize hm1 : dense.foldl
    (dictStep1 keyOfSR (fun r => {r with score := alpha * r.score})) [] = m1
  generalize hm2 : bm25.foldl
    (dictStep2 keyOfSR (fun r => {r with score := (1 - alpha) * r.score})
      (fun r v => {v with score := v.score + (1 - alpha) * r.score})) m1 = m2
  have h1 : 1 ≤ m1.length := by
    rw [← hm1]
    cases dense with
    | nil => exact absurd rfl h
    | cons x xs =>
      rw [List.foldl_cons]
      exact length_foldl_step1 keyOfSR (fun r => {r with score := alpha * r.score})
        xs (dictStep1 keyOfSR (fun r => {r with score := alpha * r.score}) [] x)
  have h2 : 1 ≤ m2.length := by
    rw [← hm2]
    exact le_trans h1 (length_foldl_step2 keyOfSR
      (fun r => {r with score := (1 - alpha) * r.score})
      (fun r v => {v with score := v.score + (1 - alpha) * r.score}) bm25 m1)
  intro hnil
  have hlen := (sortDescBy_perm SR.score (m2.map Prod.snd)).length_eq
  rw [hnil] at hlen
  simp at hlen
  omega

lemma take_ne_nil_of_pos {α : Type} (l : List α) (k : ℕ) (hl : l ≠ []) (hk : 0 < k) :
    l.take k ≠ [] := by
  cases l with
  | nil => exact absurd rfl hl
  | cons x xs =>
    cases k with
    | zero => omega
    | succ n => simp

lemma retrieveText_some (txt : CorpusData) (txtSearch : List (ℤ × ℚ)) (k : ℕ) (u : Bool)
    (hvalid : ∀ p ∈ txtSearch, (pyGet txt.docs p.1).isSome ∧ (pyGet txt.metadata p.1).isSome)
    (hbm : ∀ scores, txt.bm25 = some scores →
      scores.length ≤ txt.docs.length ∧ scores.length ≤ txt.metadata.length)
    (hk : 0 < k) (hs : txtSearch ≠ []) :
    ∃ l, retrieveText txt txtSearch k u = some l ∧ l ≠ [] ∧
      ∀ r ∈ l, r.content ∈ txt.docs := by
  obtain ⟨dense, hd, hlen, hmem⟩ := collectDense_some txt.docs txt.metadata txtSearch hvalid
  have hdne : dense ≠ [] := by
    intro h0
    apply hs
    have h1 := congrArg List.length h0
    rw [hlen] at h1
    exact List.length_eq_zero.mp h1
  cases u with
  | false =>
    refine ⟨dense.take k, ?_, take_ne_nil_of_pos dense k hdne hk, ?_⟩
    · unfold retrieveText
      rw [hd]
    · intro r hr
      exact hmem r (List.take_subset k dense hr)
  | true =>
    cases hb : txt.bm25 with
    | none =>
      refine ⟨dense.take k, ?_, take_ne_nil_of_pos dense k hdne hk, ?_⟩
      · unfold retrieveText
        rw [hd, hb]
      · intro r hr
        exact hmem r (List.take_subset k dense hr)
    | some scores =>
      obtain ⟨hsd, hsm⟩ := hbm scores hb
      obtain ⟨b, hbs, hbmem⟩ := bm25Search_some scores txt.docs txt.metadata k hsd hsm
      refine ⟨(mergeResults dense b (7 / 10)).take k, ?_, ?_, ?_⟩
      · simp only [retrieveText, hd, hb, hbs]
      · exact take_ne_nil_of_pos _ k (mergeResults_ne_nil dense b _ hdne) hk
      · intro r hr
        have hr' := List.take_subset k _ hr
        rcases mergeResults_content_mem dense b _ r hr' with ⟨x, hx, hxc⟩ | ⟨x, hx, hxc⟩
        · have hx2 := hmem x hx
          rw [hxc] at hx2
          exact hx2
        · have hx2 := hbmem x hx
          rw [hxc] at hx2
          exact hx2

lemma retrieveTables_fallback (tab txt : CorpusData) (tabSearch txtSearch : List (ℤ × ℚ))
    (k : ℕ) (u : Bool) (h : tab.docs = []) :
    retrieveTables tab txt tabSearch txtSearch k u = retrieveText txt txtSearch k u := by
  have h' : tab.docs.isEmpty = true := by rw [h]; rfl
  unfold retrieveTables
  rw [if_pos h']

/-! ### Nodup-key specialization of the merge, and further evaluation lemmas -/

lemma length_filter_key_le_one {α : Type} (f : α → String) (l : List α) (k : String)
    (h : (l.map f).Nodup) : (l.filter (fun x => f x == k)).length ≤ 1 := by
  induction l with
  | nil => simp
  | cons x xs ih =>
    rw [List.map_cons, List.nodup_cons] at h
    by_cases hx : (f x == k) = true
    · rw [List.filter_cons, if_pos hx]
      have hnil : xs.filter (fun y => f y == k) = [] := by
        rw [List.filter_eq_nil]
        intro y hy hyk
        apply h.1
        rw [List.mem_map]
        refine ⟨y, hy, ?_⟩
        have h1 : f y = k := by simpa using hyk
        have h2 : f x = k := by simpa using hx
        rw [h1, h2]
      rw [hnil]
      simp
    · rw [List.filter_cons, if_neg hx]
      exact ih h.2

lemma lastDenseContrib_nodup (alpha : ℚ) (dense : List SR) (k : String)
    (h : (dense.map keyOfSR).Nodup) :
    lastDenseContrib alpha dense k = alpha * scoreOf dense k := by
  have hle := length_filter_key_le_one keyOfSR dense k h
  rw [lastDenseContrib, scoreOf]
  cases hf : dense.filter (fun r => keyOfSR r == k) with
  | nil => simp
  | cons r rest =>
    rw [hf] at hle
    have hrest : rest = [] := by
      cases rest with
      | nil => rfl
      | cons a b =>
        exfalso
        rw [List.length_cons, List.length_cons] at hle
        omega
    subst hrest
    simp

lemma extract_5thousand : extract_numbers "5thousand" = [5000] := by
  have hv : tokValue ⟨false, ['5'], false, [], some .thous⟩ = some 5000 := by
    rw [tokValue_eq _ (by decide)]
    norm_num [tokBase, unitMult, show digitsToNat ['5'] = 5 from by decide,
      show digitsToNat [] = 0 from rfl]
  rw [extract_eval "5thousand" [⟨false, ['5'], false, [], some .thous⟩] (by decide)]
  simp [hv]

lemma evidenceNums_acc (evidence : List Evidence) (acc : List ℚ) :
    evidence.foldl
        (fun acc ev =>
          if ev.content_type = "table" then acc ++ extract_numbers ev.content else acc)
        acc
      = acc ++ ((evidence.filter (fun e => e.content_type == "table")).map
          (fun e => extract_numbers e.content)).flatten := by
  induction evidence generalizing acc with
  | nil => simp
  | cons e rest ih =>
    rw [List.foldl_cons]
    by_cases he : e.content_type = "table"
    · rw [if_pos he, ih]
      have hpe : (e.content_type == "table") = true := by simpa using he
      rw [List.filter_cons, if_pos hpe]
      simp
    · rw [if_neg he, ih]
      have hpe : ¬ ((e.content_type == "table") = true) := by simpa using he
      rw [List.filter_cons, if_neg hpe]

lemma evidenceNums_eq (evidence : List Evidence) :
    evidenceNums evidence
      = ((evidence.filter (fun e => e.content_type == "table")).map
          (fun e => extract_numbers e.content)).flatten := by
  rw [evidenceNums]
  simpa using evidenceNums_acc evidence []

/-! ## Claims -/

/-- Claim C1: the weighted merge keys each candidate by a content-derived key
(the first 50 characters of its content); when each content key occurs at most
once per input list, a candidate's fused score is `α·dense_score +
(1−α)·lexical_score`, with either term absent when the key is missing from
that list (its `scoreOf` is then 0); the merged list is sorted descending by
score; and for dense `{"rev": 0.9}`, lexical `{"rev": 0.4}`, `α = 0.7` the
fused score of `"rev"` is `0.75`. -/
theorem C1_weighted_fusion :
    (∀ (dense bm25 : List SR) (alpha : ℚ) (k : String),
      (dense.map keyOfSR).Nodup →
      scoreOf (mergeResults dense bm25 alpha) k
        = alpha * scoreOf dense k + (1 - alpha) * scoreOf bm25 k) ∧
    (∀ (dense bm25 : List SR) (alpha : ℚ),
      SortedDescBy SR.score (mergeResults dense bm25 alpha)) ∧
    scoreOf (mergeResults [⟨"rev", "", 9/10⟩] [⟨"rev", "", 4/10⟩] (7/10)) "rev"
      = 3/4 := by
  refine ⟨?_, ?_, ?_⟩
  · intro dense bm25 alpha k hnd
    rw [mergeResults_scoreOf, lastDenseContrib_nodup alpha dense k hnd]
  · intro dense bm25 alpha
    exact sorted_sortDescBy SR.score _
  · rw [mergeResults_scoreOf]
    have h1 : ([⟨"rev", "", (9:ℚ)/10⟩] : List SR).filter
        (fun r => keyOfSR r == "rev") = [⟨"rev", "", (9:ℚ)/10⟩] := rfl
    have h2 : ([⟨"rev", "", (4:ℚ)/10⟩] : List SR).filter
        (fun r => keyOfSR r == "rev") = [⟨"rev", "", (4:ℚ)/10⟩] := rfl
    rw [lastDenseContrib, h1, scoreOf, h2]
    norm_num [List.getLast?_singleton]

/-- Witness for C1: the nodup hypothesis holds at the singleton inputs of the
spec's worked example, where the fused-score formula applies. -/
theorem C1_weighted_fusion_witness :
    scoreOf (mergeResults [⟨"rev", "", 9/10⟩] [⟨"rev", "", 4/10⟩] (7/10)) "rev"
      = (7/10) * scoreOf [⟨"rev", "", 9/10⟩] "rev"
        + (1 - 7/10) * scoreOf [⟨"rev", "", 4/10⟩] "rev" :=
  C1_weighted_fusion.1 [⟨"rev", "", 9/10⟩] [⟨"rev", "", 4/10⟩] (7/10) "rev" (by simp)

/-- Claim C2: with an empty table corpus, table retrieval falls back to text
retrieval and — whenever the text search yields at least one position and all
positions subscript validly (the non-empty-corpus reading), with coherent
BM25 data — returns `some` non-empty list whose contents come from the text
corpus: no exception, no empty result. -/
theorem C2_empty_table_fallback (tab txt : CorpusData)
    (tabSearch txtSearch : List (ℤ × ℚ)) (k : ℕ) (u : Bool)
    (hempty : tab.docs = [])
    (hvalid : ∀ p ∈ txtSearch,
      (pyGet txt.docs p.1).isSome ∧ (pyGet txt.metadata p.1).isSome)
    (hbm : ∀ scores, txt.bm25 = some scores →
      scores.length ≤ txt.docs.length ∧ scores.length ≤ txt.metadata.length)
    (hk : 0 < k) (hs : txtSearch ≠ []) :
    retrieveTables tab txt tabSearch txtSearch k u = retrieveText txt txtSearch k u ∧
    ∃ l, retrieveTables tab txt tabSearch txtSearch k u = some l ∧ l ≠ [] ∧
      ∀ r ∈ l, r.content ∈ txt.docs := by
  have hfb := retrieveTables_fallback tab txt tabSearch txtSearch k u hempty
  obtain ⟨l, hl, hne, hmem⟩ := retrieveText_some txt txtSearch k u hvalid hbm hk hs
  exact ⟨hfb, l, by rw [hfb, hl], hne, hmem⟩

/-- Witness for C2: a concrete empty table corpus with a one-document text
corpus and a single valid search position. -/
theorem C2_empty_table_fallback_witness :
    ∃ l, retrieveTables ⟨[], [], none⟩ ⟨["text doc"], ["m"], none⟩
        [] [((0:ℤ), (0:ℚ))] 1 false = some l ∧ l ≠ [] ∧
      ∀ r ∈ l, r.content ∈ (⟨["text doc"], ["m"], none⟩ : CorpusData).docs :=
  (C2_empty_table_fallback ⟨[], [], none⟩ ⟨["text doc"], ["m"], none⟩
    [] [(0, 0)] 1 false rfl (by decide)
    (fun scores h => Option.noConfusion h) (by decide) (by simp)).2

/-- Claim C3 counterexample: for a lookup-type query, an answer with no
extractable numbers makes every answer number vacuously matched, so the
original claim demands `"verified"`; the code returns `"no_numbers"`, which is
neither `"verified"` nor `"failed"`. -/
theorem C3_counterexample :
    detect_calculation_type "What was the revenue?" "Revenue was flat" = "lookup" ∧
    (∀ a ∈ extract_numbers "Revenue was flat",
      ∃ e ∈ evidenceNums [⟨"100", "table"⟩], numbersMatch (1/100) a e = true) ∧
    verify (1/100) "Revenue was flat" [⟨"100", "table"⟩] "What was the revenue?"
      ≠ "verified" ∧
    verify (1/100) "Revenue was flat" [⟨"100", "table"⟩] "What was the revenue?"
      ≠ "failed" := by
  refine ⟨by decide, ?_, ?_, ?_⟩
  · intro a ha
    rw [extract_flat] at ha
    simp at ha
  · have hne : verify (1/100) "Revenue was flat" [⟨"100", "table"⟩]
        "What was the revenue?" = "no_numbers" := by
      simp [verify, extract_flat]
    rw [hne]
    decide
  · have hne : verify (1/100) "Revenue was flat" [⟨"100", "table"⟩]
        "What was the revenue?" = "no_numbers" := by
      simp [verify, extract_flat]
    rw [hne]
    decide

/-- Claim C3 (amended): for a lookup-type query whose answer has at least one
extractable number, `verify` returns `"verified"` iff every answer number
matches some evidence number within tolerance and `"failed"` otherwise; the
evidence numbers come exactly from the table-typed evidence pieces. -/
theorem C3_lookup_verification (tol : ℚ) (answer : String) (evidence : List Evidence)
    (query : String)
    (hq : detect_calculation_type query answer = "lookup")
    (ha : extract_numbers answer ≠ []) :
    (verify tol answer evidence query = "verified" ↔
      ∀ a ∈ extract_numbers answer,
        ∃ e ∈ evidenceNums evidence, numbersMatch tol a e = true) ∧
    (verify tol answer evidence query = "verified" ∨
      verify tol answer evidence query = "failed") ∧
    evidenceNums evidence
      = ((evidence.filter (fun e => e.content_type == "table")).map
          (fun e => extract_numbers e.content)).flatten := by
  rw [verify_lookup tol answer evidence query hq ha]
  by_cases hp : presenceOk tol (extract_numbers answer) (evidenceNums evidence) = true
  · rw [if_pos hp]
    exact ⟨⟨fun _ => (presenceOk_iff tol _ _).mp hp, fun _ => rfl⟩, Or.inl rfl,
      evidenceNums_eq evidence⟩
  · rw [if_neg hp]
    refine ⟨⟨fun hv => absurd hv (by decide),
      fun hall => absurd ((presenceOk_iff tol _ _).mpr hall) hp⟩, Or.inr rfl,
      evidenceNums_eq evidence⟩

/-- Witness for C3 (amended): the spec's worked example — answer
`"Revenue was 100"` is verified against table evidence `"100.5"` (relative
error `1/201 < 1/100`) and failed against `"90"`. -/
theorem C3_lookup_verification_witness :
    verify (1/100) "Revenue was 100" [⟨"100.5", "table"⟩] "What was the revenue?"
      = "verified" ∧
    verify (1/100) "Revenue was 100" [⟨"90", "table"⟩] "What was the revenue?"
      = "failed" := by
  have hA : extract_numbers "Revenue was 100" ≠ [] := by
    rw [extract_rev100]
    exact List.cons_ne_nil _ _
  have hev1 : evidenceNums [⟨"100.5", "table"⟩] = [201/2] := by
    have h : evidenceNums [⟨"100.5", "table"⟩] = extract_numbers "100.5" := by
      simp [evidenceNums]
    rw [h, extract_1005]
  have hev2 : evidenceNums [⟨"90", "table"⟩] = [90] := by
    have h : evidenceNums [⟨"90", "table"⟩] = extract_numbers "90" := by
      simp [evidenceNums]
    rw [h, extract_90]
  constructor
  · apply (C3_lookup_verification (1/100) "Revenue was 100" [⟨"100.5", "table"⟩]
      "What was the revenue?" (by decide) hA).1.mpr
    intro a haa
    rw [extract_rev100] at haa
    have ha100 : a = 100 := by simpa using haa
    subst ha100
    refine ⟨201/2, by rw [hev1]; simp, ?_⟩
    rw [numbersMatch, if_neg (by norm_num)]
    rw [decide_eq_true_eq, abs_lt]
    constructor <;> norm_num
  · have h2 := C3_lookup_verification (1/100) "Revenue was 100" [⟨"90", "table"⟩]
      "What was the revenue?" (by decide) hA
    rcases h2.2.1 with hv | hf
    · exfalso
      have hall := h2.1.mp hv
      have h100 : (100 : ℚ) ∈ extract_numbers "Revenue was 100" := by
        rw [extract_rev100]
        simp
      obtain ⟨e, he, hm⟩ := hall 100 h100
      rw [hev2] at he
      have he90 : e = 90 := by simpa using he
      subst he90
      rw [numbersMatch, if_neg (by norm_num)] at hm
      rw [decide_eq_true_eq, abs_lt] at hm
      have := hm.2
      norm_num at this
    · exact hf

/-- Claim C4 counterexample: extraction is not case-insensitive for the
multipliers — `"5b"` and `"5m"` yield plain `5` (the suffix is stripped but no
multiplier applies, the source checks `'B' in text` / `'M' in text`
case-sensitively), not `5·10⁹` / `5·10⁶` as claimed. -/
theorem C4_counterexample :
    extract_numbers "5b" = [5] ∧ extract_numbers "5b" ≠ [5000000000] ∧
    extract_numbers "5m" = [5] ∧ extract_numbers "5m" ≠ [5000000] := by
  refine ⟨extract_5b, ?_, extract_5m, ?_⟩
  · rw [extract_5b]
    intro h
    injection h with h1 h2
    exact absurd h1 (by norm_num)
  · rw [extract_5m]
    intro h
    injection h with h1 h2
    exact absurd h1 (by norm_num)

/-- Claim C4 (amended): a well-formed captured token evaluates to its base
value times the multiplier of its unit, where uppercase `M` (×10⁶), uppercase
`B` (×10⁹) and the word `thousand` (×10³) scale the value while lowercase `m`
and `b` are stripped with multiplier 1; concretely `"5B" ↦ 5·10⁹`,
`"5M" ↦ 5·10⁶`, `"5thousand" ↦ 5000`, but `"5b" ↦ 5` and `"5m" ↦ 5`. -/
theorem C4_magnitude_units :
    (∀ t : NumTok, TokWF t → tokValue t = some (tokBase t * unitMult t.unit)) ∧
    unitMult (some .uM) = 1000000 ∧ unitMult (some .uB) = 1000000000 ∧
    unitMult (some .thous) = 1000 ∧ unitMult (some .lm) = 1 ∧
    unitMult (some .lb) = 1 ∧
    extract_numbers "5B" = [5000000000] ∧ extract_numbers "5M" = [5000000] ∧
    extract_numbers "5thousand" = [5000] ∧
    extract_numbers "5b" = [5] ∧ extract_numbers "5m" = [5] :=
  ⟨fun t h => tokValue_eq t h, rfl, rfl, rfl, rfl, rfl,
    extract_5B, extract_5M, extract_5thousand, extract_5b, extract_5m⟩

/-- Witness for C4 (amended): the token captured from `"5B"` is well-formed
and the closed form applies to it. -/
theorem C4_magnitude_units_witness :
    tokValue ⟨false, ['5'], false, [], some NumUnit.uB⟩
      = some (tokBase ⟨false, ['5'], false, [], some NumUnit.uB⟩
          * unitMult (some NumUnit.uB)) :=
  C4_magnitude_units.1 ⟨false, ['5'], false, [], some NumUnit.uB⟩ (by decide)

/-- Claim C5 counterexample: `"What is the sum?"` has `requires_math = true`
although none of the nine keywords the spec lists occurs in it — the source's
keyword list additionally contains `"sum"` and `"total"`. -/
theorem C5_counterexample :
    (route "What is the sum?").requires_math = true ∧
    ∀ kw ∈ (["calculate", "compute", "difference", "ratio", "percentage",
      "change", "growth", "increase", "decrease"] : List String),
      containsSub (lowers "What is the sum?".data) kw.data = false := by
  constructor
  · decide
  · decide

/-- Claim C5 (amended): `requires_math` is true iff at least one keyword of
the source's eleven-element list — calculate, compute, difference, sum, total,
ratio, percentage, change, growth, increase, decrease — occurs as a substring
of the lowercased query. -/
theorem C5_requires_math (query : String) :
    (route query).requires_math = true ↔
      ∃ kw ∈ (["calculate", "compute", "difference", "sum", "total",
        "ratio", "percentage", "change", "growth", "increase", "decrease"] :
          List String),
        containsSub (lowers query.data) kw.data = true := by
  constructor
  · intro hrm
    have h : requiresMathQ (lowers query.data) = true := hrm
    rw [requiresMathQ, List.any_eq_true] at h
    exact h
  · intro hex
    show requiresMathQ (lowers query.data) = true
    rw [requiresMathQ, List.any_eq_true]
    exact hex

/-- Claim C6: `is_table_centric` is true iff at least two distinct
table keywords match the lowercased query as substrings (the source counts
matching keywords over a duplicate-free keyword list, so the count is the
distinct-match count); one single match yields false. -/
theorem C6_table_centric (query : String) :
    ((route query).is_table_centric = true ↔
      2 ≤ ((table_keywords.filter fun kw =>
        containsSub (lowers query.data) kw.data).dedup).length) ∧
    (((table_keywords.filter fun kw =>
        containsSub (lowers query.data) kw.data).dedup).length = 1 →
      (route query).is_table_centric = false) := by
  have hnd : table_keywords.Nodup := by decide
  have hnd2 : (table_keywords.filter fun kw =>
      containsSub (lowers query.data) kw.data).Nodup := List.Nodup.filter _ hnd
  have hded := List.Nodup.dedup hnd2
  have hroute : (route query).is_table_centric
      = decide (2 ≤ table_keywords.countP
          (fun kw => containsSub (lowers query.data) kw.data)) := rfl
  constructor
  · rw [hroute, hded]
    constructor
    · intro hdec
      have h := of_decide_eq_true hdec
      rwa [List.countP_eq_length_filter] at h
    · intro hlen
      apply decide_eq_true
      rwa [← List.countP_eq_length_filter] at hlen
  · intro h1
    rw [hded] at h1
    rw [hroute]
    apply decide_eq_false
    intro hge
    rw [List.countP_eq_length_filter, h1] at hge
    omega

/-- Witness for C6: the spec's example query matches three distinct table
keywords (change, revenue, year-over-year) and is table-centric; a query
matching only `total` is not. -/
theorem C6_table_centric_witness :
    (route "What was the revenue change year-over-year?").is_table_centric = true ∧
    (route "What is the total?").is_table_centric = false := by
  constructor
  · exact (C6_table_centric "What was the revenue change year-over-year?").1.mpr
      (by decide)
  · exact (C6_table_centric "What is the total?").2 (by decide)

/-- Claim C7 counterexample: two dense occurrences of the same key are merged
by replacement, not summation — with dense scores 1 and 2 on key `"a"` and
`α = 0.7` the fused score is `0.7·2 = 1.4`, not the claimed sum
`0.7·1 + 0.7·2 = 2.1`. -/
theorem C7_counterexample :
    scoreOf (mergeResults [⟨"a", "", 1⟩, ⟨"a", "", 2⟩] [] (7/10)) "a" = 7/5 ∧
    (7/5 : ℚ) ≠ (7/10) * 1 + (7/10) * 2 := by
  constructor
  · rw [mergeResults_scoreOf]
    have h1 : ([⟨"a", "", (1:ℚ)⟩, ⟨"a", "", (2:ℚ)⟩] : List SR).filter
        (fun r => keyOfSR r == "a") = [⟨"a", "", (1:ℚ)⟩, ⟨"a", "", (2:ℚ)⟩] := rfl
    rw [lastDenseContrib, h1]
    norm_num [List.getLast?_cons_cons, List.getLast?_singleton, scoreOf]
  · norm_num

/-- Claim C7 (amended): in both fusion strategies a key occurring several
times among the DENSE inputs keeps only its last dense contribution
(replacement by `d[key] = …`), while its lexical/BM25 occurrences are summed
on top (`d[key] += …`). -/
theorem C7_duplicate_keys (k : String) :
    (∀ (dense bm25 : List SR) (alpha : ℚ),
      scoreOf (mergeResults dense bm25 alpha) k
        = lastDenseContrib alpha dense k + (1 - alpha) * scoreOf bm25 k) ∧
    (∀ (dw bw : ℚ) (dense bm25 : List FR),
      scoreOfPairs (sortDescBy Prod.snd (fuseDict dw bw dense bm25)) k
        = lastRRF dw dense k + sumRRF bw bm25 k) :=
  ⟨fun dense bm25 alpha => mergeResults_scoreOf dense bm25 alpha k,
   fun dw bw dense bm25 => fuseDict_scoreOf dw bw dense bm25 k⟩

/-- Claim C8 counterexample: the TABLE branch skips an out-of-range position
and continues (here returning `some []`), but the TEXT branch has no bounds
check — the same out-of-range position makes it raise (`none`), refuting
"every stage-B branch skips". -/
theorem C8_counterexample :
    retrieveTables ⟨["t"], ["tm"], none⟩ ⟨["d"], ["dm"], none⟩
      [((5:ℤ), (0:ℚ))] [] 3 false = some [] ∧
    retrieveText ⟨["d"], ["dm"], none⟩ [((5:ℤ), (0:ℚ))] 3 false = none := by
  constructor
  · rfl
  · rfl

/-- Claim C8 (amended): the table branch skips positions at or beyond the
corpus length and continues; the text branch raises (`none`) as soon as any
position fails to subscript; an empty search-result list yields an empty
content list in either collection loop. -/
theorem C8_bounds_handling :
    (∀ (docs meta : List String) (idx : ℤ) (dist : ℚ) (rest : List (ℤ × ℚ)),
      (docs.length : ℤ) ≤ idx →
      collectTable docs meta ((idx, dist) :: rest) = collectTable docs meta rest) ∧
    (∀ (docs meta : List String) (srch : List (ℤ × ℚ)),
      (∃ p ∈ srch, pyGet docs p.1 = none ∨ pyGet meta p.1 = none) →
      collectDense docs meta srch = none) ∧
    (∀ docs meta : List String,
      collectTable docs meta [] = some [] ∧ collectDense docs meta [] = some []) :=
  ⟨fun docs meta idx dist rest h => collectTable_skip docs meta idx dist rest h,
   fun docs meta srch h => collectDense_none docs meta srch h,
   fun docs meta => ⟨rfl, rfl⟩⟩

/-- Witness for C8 (amended): position 5 in a one-element corpus is skipped by
the table loop and raises in the text loop. -/
theorem C8_bounds_handling_witness :
    collectTable ["t"] ["tm"] [((5:ℤ), (0:ℚ))] = collectTable ["t"] ["tm"] [] ∧
    collectDense ["d"] ["dm"] [((5:ℤ), (0:ℚ))] = none :=
  ⟨C8_bounds_handling.1 ["t"] ["tm"] 5 0 [] (by decide),
   C8_bounds_handling.2.1 ["d"] ["dm"] [(5, 0)]
     ⟨(5, 0), by simp, Or.inl (by decide)⟩⟩

/-- Claim C9: recall@k is monotone in the cutoff `k` for a fixed retrieved
ranking and relevant set. -/
theorem C9_recall_monotone {α : Type} [DecidableEq α] (retrieved : List α)
    (relevant : Finset α) (k₁ k₂ : ℕ) (h : k₁ ≤ k₂) :
    compute_recall_at_k retrieved relevant k₁
      ≤ compute_recall_at_k retrieved relevant k₂ := by
  unfold compute_recall_at_k
  by_cases h0 : relevant.card = 0
  · rw [if_pos h0, if_pos h0]
  · rw [if_neg h0, if_neg h0]
    have hsub : (retrieved.take k₁).toFinset ∩ relevant
        ⊆ (retrieved.take k₂).toFinset ∩ relevant := by
      refine Finset.inter_subset_inter ?_ (Finset.Subset.refl relevant)
      intro x hx
      rw [List.mem_toFinset] at hx ⊢
      have h1 : x ∈ (retrieved.take k₂).take k₁ := by
        rw [List.take_take, min_eq_left h]
        exact hx
      exact List.take_subset k₁ _ h1
    gcongr
    all_goals exact_mod_cast Finset.card_le_card hsub

/-- Witness for C9: cutoffs 1 ≤ 2 on the ranking `[0, 1]` with relevant set
`{1}` (recall rises from 0 to 1). -/
theorem C9_recall_monotone_witness :
    compute_recall_at_k [0, 1] ({1} : Finset ℕ) 1
      ≤ compute_recall_at_k [0, 1] ({1} : Finset ℕ) 2 :=
  C9_recall_monotone [0, 1] {1} 1 2 (by decide)

/-- Claim C10: on a list input, number extraction returns the concatenation,
in list order, of each item's contribution; a dict item contributes the
numbers of its `content` field, a dict without `content` contributes
extraction over the empty string, and a non-dict item contributes extraction
over its string rendering. -/
theorem C10_polymorphic_extract :
    (∀ (items : List PyVal) (rendering : String),
      extract_numbers_val (PyVal.vlist items rendering)
        = (items.map itemNumbers).flatten) ∧
    (∀ (c : PyVal) (r : String),
      itemNumbers (PyVal.vdict (some c) r) = extract_numbers_val c) ∧
    (∀ r : String, itemNumbers (PyVal.vdict none r) = extract_numbers "") ∧
    (∀ s : String, itemNumbers (PyVal.vstr s) = extract_numbers s) ∧
    (∀ r : String, itemNumbers (PyVal.vother r) = extract_numbers r) := by
  refine ⟨?_, fun c r => rfl, fun r => rfl, fun s => rfl, fun r => rfl⟩
  intro items rendering
  have h : extract_numbers_val (PyVal.vlist items rendering)
      = extractItemsAcc [] items := rfl
  rw [h]
  simpa using extractItemsAcc_eq items []
